import Mathlib

/-!
Verification of the Hint/Location transition-system engine (`src/hint.py`)
and the linear-expression normalizer (`src/ineq.py`) of the F3 repository.

The first part shallowly embeds the boolean-formula layer used by
`hint.py`: pysmt formulae become an inductive type `BForm` of boolean
formulas over current/next-state symbols, evaluated over pairs of states.
Components of the repository that `hint.py` imports but that are not part
of the sources (`TransSystem`, `RankFun`, `new_enum`, `to_next`,
`symb2next`) are modelled from the specification, as marked in their
doc comments.
-/

namespace F3

/-- Symbols occurring in a Hint's transition system: the user's state
symbols, the location-encoding symbols, the transition-type symbols and
the rank-decrease flag allocated by `Hint.get_trans_system`. -/
inductive HSym where
  | user (n : Nat)
  | loc (n : Nat)
  | ttype (n : Nat)
  | rankdec
  deriving DecidableEq, Repr

/-- A variable: a symbol in the current or the next state.
Models pysmt's "current"/"next" symbol tagging (`symb_is_curr`). -/
inductive HVar where
  | curr (s : HSym)
  | next (s : HSym)
  deriving DecidableEq, Repr

/-- Boolean formulas, the fragment of pysmt FNodes that `hint.py` builds:
TRUE, FALSE, symbols, Not, And, Or, Implies, Iff.  pysmt's n-ary
And/Or are built by `mkAnd`/`mkOr` below, which mirror the 0/1-argument
collapsing of pysmt's FormulaManager. -/
inductive BForm where
  | tru
  | fls
  | var (v : HVar)
  | bnot (p : BForm)
  | band (p q : BForm)
  | bor (p q : BForm)
  | implies (p q : BForm)
  | biff (p q : BForm)
  deriving DecidableEq, Repr

namespace BForm

/-- `mgr.And(args)`: empty conjunction is TRUE, a singleton is returned
unchanged, otherwise a conjunction node. -/
def mkAnd : List BForm → BForm
  | [] => tru
  | [p] => p
  | p :: ps => band p (mkAnd ps)

/-- `mgr.Or(args)`: empty disjunction is FALSE, a singleton is returned
unchanged, otherwise a disjunction node. -/
def mkOr : List BForm → BForm
  | [] => fls
  | [p] => p
  | p :: ps => bor p (mkOr ps)

/-- `FNode.is_false()`: the formula is the FALSE constant. -/
def isFls : BForm → Bool
  | fls => true
  | _ => false

/-- `FNode.is_symbol()`. -/
def isSymbol : BForm → Bool
  | var _ => true
  | _ => false

end BForm

/-- A state assigns a boolean value to every symbol. -/
def HState := HSym → Bool

/-- Evaluation of a formula over a pair (current state, next state). -/
def beval (σ σ' : HState) : BForm → Bool
  | .tru => true
  | .fls => false
  | .var (.curr s) => σ s
  | .var (.next s) => σ' s
  | .bnot p => !beval σ σ' p
  | .band p q => beval σ σ' p && beval σ σ' q
  | .bor p q => beval σ σ' p || beval σ σ' q
  | .implies p q => !beval σ σ' p || beval σ σ' q
  | .biff p q => beval σ σ' p == beval σ σ' q

theorem beval_implies (σ σ' : HState) (p q : BForm) :
    beval σ σ' (.implies p q) = (!beval σ σ' p || beval σ σ' q) := rfl

theorem beval_band (σ σ' : HState) (p q : BForm) :
    beval σ σ' (.band p q) = (beval σ σ' p && beval σ σ' q) := rfl

theorem beval_bnot (σ σ' : HState) (p : BForm) :
    beval σ σ' (.bnot p) = !beval σ σ' p := rfl

theorem beval_var_curr (σ σ' : HState) (s : HSym) :
    beval σ σ' (.var (.curr s)) = σ s := rfl

/-- Modelled from the spec: `expr_utils.to_next` (not under `src/`) renames
every current-state symbol belonging to the given symbol set to its
next-state counterpart ("next-state symbol renaming"). -/
def toNext (S : List HSym) : BForm → BForm
  | .tru => .tru
  | .fls => .fls
  | .var (.curr s) => if s ∈ S then .var (.next s) else .var (.curr s)
  | .var (.next s) => .var (.next s)
  | .bnot p => .bnot (toNext S p)
  | .band p q => .band (toNext S p) (toNext S q)
  | .bor p q => .bor (toNext S p) (toNext S q)
  | .implies p q => .implies (toNext S p) (toNext S q)
  | .biff p q => .biff (toNext S p) (toNext S q)

/-- Modelled from the spec: `expr_utils.symb2next` (not under `src/`) maps
a current-state symbol to its next-state version; on a symbol formula it
replaces every current symbol by its primed version. -/
def symb2nextF : BForm → BForm
  | .var (.curr s) => .var (.next s)
  | f => f

/-- The variables occurring in a formula. -/
def BForm.fvars : BForm → List HVar
  | .tru => []
  | .fls => []
  | .var v => [v]
  | .bnot p => p.fvars
  | .band p q => p.fvars ++ q.fvars
  | .bor p q => p.fvars ++ q.fvars
  | .implies p q => p.fvars ++ q.fvars
  | .biff p q => p.fvars ++ q.fvars

/-- Evaluation only depends on the values of the occurring variables. -/
theorem beval_congr {f : BForm} {σ σ' τ τ' : HState}
    (h : ∀ v ∈ f.fvars, (match v with
        | .curr s => σ s = τ s
        | .next s => σ' s = τ' s)) :
    beval σ σ' f = beval τ τ' f := by
  induction f with
  | tru => rfl
  | fls => rfl
  | var v =>
    have := h v (by simp [BForm.fvars])
    cases v <;> simpa [beval] using this
  | bnot p ih =>
    simp only [beval, ih fun v hv => h v (by simp [BForm.fvars, hv])]
  | band p q ihp ihq =>
    simp only [beval,
      ihp fun v hv => h v (by simp [BForm.fvars, hv]),
      ihq fun v hv => h v (by simp [BForm.fvars, hv])]
  | bor p q ihp ihq =>
    simp only [beval,
      ihp fun v hv => h v (by simp [BForm.fvars, hv]),
      ihq fun v hv => h v (by simp [BForm.fvars, hv])]
  | implies p q ihp ihq =>
    simp only [beval,
      ihp fun v hv => h v (by simp [BForm.fvars, hv]),
      ihq fun v hv => h v (by simp [BForm.fvars, hv])]
  | biff p q ihp ihq =>
    simp only [beval,
      ihp fun v hv => h v (by simp [BForm.fvars, hv]),
      ihq fun v hv => h v (by simp [BForm.fvars, hv])]

/-- Evaluating `toNext S f` amounts to evaluating `f` with the current
state replaced, on `S`, by the next state. -/
theorem beval_toNext (S : List HSym) (f : BForm) (σ σ' : HState) :
    beval σ σ' (toNext S f)
      = beval (fun s => if s ∈ S then σ' s else σ s) σ' f := by
  induction f with
  | tru => rfl
  | fls => rfl
  | var v =>
    cases v with
    | curr s =>
      by_cases hs : s ∈ S <;> simp [toNext, beval, hs]
    | next s => rfl
  | bnot p ih => simp [toNext, beval, ih]
  | band p q ihp ihq => simp [toNext, beval, ihp, ihq]
  | bor p q ihp ihq => simp [toNext, beval, ihp, ihq]
  | implies p q ihp ihq => simp [toNext, beval, ihp, ihq]
  | biff p q ihp ihq => simp [toNext, beval, ihp, ihq]

/-- A formula whose variables are all current-state symbols from `S`. -/
def OnlyCurrIn (S : List HSym) (f : BForm) : Prop :=
  ∀ v ∈ f.fvars, ∃ s ∈ S, v = HVar.curr s

/-- For a formula over current symbols of `S`, `toNext S f` evaluated over
`(σ, σ')` equals `f` evaluated in state `σ'`. -/
theorem beval_toNext_onlyCurr {S : List HSym} {f : BForm}
    (hf : OnlyCurrIn S f) (σ σ' τ : HState) :
    beval σ σ' (toNext S f) = beval σ' τ f := by
  rw [beval_toNext]
  refine beval_congr fun v hv => ?_
  obtain ⟨s, hs, rfl⟩ := hf v hv
  simp [hs]

/-- For a formula over current symbols, evaluation ignores the
next-state component. -/
theorem beval_onlyCurr {S : List HSym} {f : BForm}
    (hf : OnlyCurrIn S f) (σ σ' τ : HState) :
    beval σ σ' f = beval σ τ f := by
  refine beval_congr fun v hv => ?_
  obtain ⟨s, _, rfl⟩ := hf v hv
  simp

/-! ### Python dictionaries with heterogeneous keys

`Location.progressT` is a Python dict whose keys are the destination
indices (ints).  `Location.set_progress` however calls
`self.progressT.pop(t, None)` with `t` an FNode, so the dict-key type
must admit both ints and formula nodes for the embedding to express
that call as written. -/

/-- A Python dict key as used on `progressT`: an int or an FNode. -/
inductive PyKey where
  | pint (n : Nat)
  | pterm (f : BForm)
  deriving DecidableEq, Repr

/-- Association list standing for a Python dict (unique keys, insertion
order preserved). -/
abbrev PyDict := List (PyKey × BForm)

namespace PyDict

/-- `d.get(k)` / `d[k]` lookup. -/
def get (d : PyDict) (k : PyKey) : Option BForm :=
  match d with
  | [] => none
  | (k', v) :: rest => if k' = k then some v else get rest k

/-- `d[k] = v`: overwrite in place if the key exists, else append. -/
def set (d : PyDict) (k : PyKey) (v : BForm) : PyDict :=
  match d with
  | [] => [(k, v)]
  | (k', v') :: rest =>
    if k' = k then (k', v) :: rest else (k', v') :: set rest k v

/-- `d.pop(k, None)`: drop the entry with key `k`, if any. -/
def pop (d : PyDict) (k : PyKey) : PyDict :=
  match d with
  | [] => []
  | (k', v') :: rest => if k' = k then rest else (k', v') :: pop rest k

/-- The int-keyed entries, in insertion order (iteration over
`progressT`, whose keys are destination indices). -/
def intEntries (d : PyDict) : List (Nat × BForm) :=
  match d with
  | [] => []
  | (.pint n, v) :: rest => (n, v) :: intEntries rest
  | (.pterm _, _) :: rest => intEntries rest

end PyDict

/-- Modelled from the spec: `RankFun` (not under `src/`) is consumed as an
opaque object exposing the predicates `is_ranked()` (rank > minimum),
`is_min()` (rank == minimum), `is_const()` (rank' == rank) and
`is_decr()` (rank' < rank) over Terms. -/
structure RankFun where
  isRanked : BForm
  isMin : BForm
  isConst : BForm
  isDecr : BForm
  deriving DecidableEq, Repr

/-- `hint.Location`: a location of a hint.  The constructor defaults of
`Location.__init__` are baked into `Location.init`: `assume` defaults to
TRUE, `stutterT` and `rankT` default to FALSE, `progressT` to the empty
dict.  The fields `urankT`/`urf` stand for the Python attributes
`_rankT`/`_rf` that `set_rank` creates; no other method reads them. -/
structure Location where
  region : BForm
  assume : BForm
  stutterT : BForm
  rankT : BForm
  rf : Option RankFun
  progressT : PyDict
  urankT : Option BForm := none
  urf : Option RankFun := none

namespace Location

/-- `Location.__init__` with its `None`-defaults filled in. -/
def init (region : BForm) (assume : Option BForm := none)
    (stutterT : Option BForm := none) (rankT : Option BForm := none)
    (rf : Option RankFun := none) (progressT : Option PyDict := none) :
    Location :=
  { region := region
    assume := assume.getD .tru
    stutterT := stutterT.getD .fls
    rankT := rankT.getD .fls
    rf := rf
    progressT := progressT.getD [] }

/-- `Location.ranked_region`. -/
def ranked_region (l : Location) : BForm :=
  match l.rf with
  | none => .fls
  | some r => .band l.region r.isRanked

/-- `Location.dsts`: the integer keys of `progressT`. -/
def dsts (l : Location) : List Nat :=
  (l.progressT.intEntries).map Prod.fst

/-- `Location.set_rank`: stores into the attributes `_rankT` and `_rf`
(which no other operation reads), not into `rankT`/`rf`. -/
def set_rank (l : Location) (trans : BForm) (rf : RankFun) : Location :=
  { l with urankT := some trans, urf := some rf }

/-- `Location.progress(dst)`: the progress transition reaching `dst`. -/
def progress (l : Location) (dst : Nat) : Option BForm :=
  l.progressT.get (.pint dst)

/-- `Location.set_progress(dst, t)`: when `t` is FALSE the code executes
`self.progressT.pop(t, None)` — popping with the FNode `t` as the key —
otherwise it stores `t` under the int key `dst`. -/
def set_progress (l : Location) (dst : Nat) (t : BForm) : Location :=
  if t.isFls then
    { l with progressT := l.progressT.pop (.pterm t) }
  else
    { l with progressT := l.progressT.set (.pint dst) t }

/-- Placeholder ranking function used where the Python code would
dereference `self.rf` after asserting it is not `None`. -/
def rfD (l : Location) : RankFun :=
  l.rf.getD ⟨.fls, .fls, .fls, .fls⟩

/-- `Location.get_trans`: the transition clauses yielded for source
location `idx`.  The parameters `symbs` and `locs` of the Python method
are used only inside assertions and are omitted; the assertions
themselves are collected in `get_trans_checks`. -/
def get_trans (l : Location) (idx : Nat) (lvals x_lvals : List BForm)
    (is_stutter is_ranked is_progress is_rank_decr : BForm) :
    List BForm :=
  -- cfg: loc -> \/ (x_loc & \/ trans_types)
  let t_type1 : List BForm := if l.stutterT.isFls then [] else [is_stutter]
  let min_rf : Option BForm :=
    if l.rankT.isFls then none else some l.rfD.isMin
  let t_type2 : List BForm :=
    if l.rankT.isFls then t_type1
    else t_type1 ++ [.band is_ranked l.rfD.isRanked]
  let t_type : List BForm :=
    if (l.progress idx).isSome then
      t_type2 ++ [match min_rf with
                  | some m => .band is_progress m
                  | none => is_progress]
    else t_type2
  let x_locs : List BForm :=
    .band (x_lvals.getD idx .fls) (.mkOr t_type) ::
      ((l.dsts.filter (· ≠ idx)).map fun dst =>
        match min_rf with
        | none => .band (x_lvals.getD dst .fls) is_progress
        | some m => BForm.mkAnd [x_lvals.getD dst .fls, is_progress, m])
  [BForm.implies (lvals.getD idx .fls) (.mkOr x_locs)]
  -- loc & loc' & is_stutter -> stutterT & rf' = rf
  ++ (if l.stutterT.isFls then [] else
      [.implies (BForm.mkAnd [lvals.getD idx .fls, x_lvals.getD idx .fls,
                              is_stutter])
        (match l.rf with
         | some r => .band l.stutterT r.isConst
         | none => l.stutterT)])
  -- loc & loc' & is_ranked -> rankT & rf' < rf
  ++ (if l.rankT.isFls then [] else
      [.implies (BForm.mkAnd [lvals.getD idx .fls, x_lvals.getD idx .fls,
                              is_ranked])
        (BForm.mkAnd [l.rankT, l.rfD.isRanked, l.rfD.isDecr])])
  -- loc & loc' & is_progress -> progressT
  ++ (l.progressT.intEntries.map fun e =>
      .implies (BForm.mkAnd [lvals.getD idx .fls, x_lvals.getD e.1 .fls,
                             is_progress]) e.2)
  ++ (if !is_rank_decr.isFls && !is_ranked.isFls then
      let x_ird := symb2nextF is_rank_decr
      -- loc & is_rank_decr & rf > 0 -> x_is_rank_decr
      [.implies (BForm.mkAnd [lvals.getD idx .fls, is_rank_decr,
                              l.rfD.isRanked]) x_ird,
      -- loc & is_rank_decr & rf = 0 -> !x_is_rank_decr
       .implies (BForm.mkAnd [lvals.getD idx .fls, is_rank_decr,
                              l.rfD.isMin]) (.bnot x_ird)]
      else [])

/-- The assertions of `Location.get_trans` (its only precondition
checks): the formula-shape assertions of lines 140-153 together with the
in-body assertions on `rankT`/`rf` (lines 163-164) and on the stored
progress transitions (lines 197-198).  Type/environment assertions are
enforced by the embedding's types. -/
def get_trans_checks (l : Location)
    (is_stutter is_ranked is_progress is_rank_decr : BForm) : Bool :=
  !is_stutter.isFls
  && (l.rf.isNone || !is_ranked.isFls)
  && !is_progress.isFls
  && (is_rank_decr.isFls || is_rank_decr.isSymbol)
  && (!is_ranked.isFls || is_rank_decr.isFls)
  && (is_ranked.isFls || !is_rank_decr.isFls)
  && (l.rankT.isFls || (!is_ranked.isFls && l.rf.isSome))
  && (l.progressT.intEntries.all fun e => !e.2.isFls)
  && (!(!is_rank_decr.isFls && !is_ranked.isFls) || l.rf.isSome)

end Location

section LocationClaims

/-- A sample progress transition used in the C2 scenario. -/
def c2trans : BForm := .var (.curr (.user 3))

/-- A location holding a progress edge to destination 7. -/
def c2loc : Location :=
  Location.init .tru none none none none (some [(.pint 7, c2trans)])

/-- C2 (code bug witness): `set_progress(7, FALSE)` is claimed (and
documented) to remove the progress edge stored under destination 7, but
the code pops with key `t` — the FALSE FNode — instead of `dst`, so the
stale edge survives and `progress(7)` still returns it. -/
theorem c2_set_progress_false_keeps_stale_edge :
    (c2loc.set_progress 7 .fls).progress 7 = some c2trans ∧
      (c2loc.set_progress 7 .fls).progress 7 ≠ none := by
  constructor <;> decide

/-- The location used in the C4 scenario: trivial (FALSE) stutter
transition, empty progress map, no ranking function. -/
def c4loc : Location := Location.init .tru

/-- C4 counterexample: a location with FALSE `stutterT` and empty
`progressT` does not make `get_trans` fail any of its assertions; the
call emits its outgoing-edge clause (with an empty type disjunction)
rather than raising a precondition failure. -/
theorem c4_no_precondition_failure :
    c4loc.get_trans_checks (.var (.curr (.ttype 0))) .fls
        (.var (.curr (.ttype 2))) .fls = true ∧
      c4loc.get_trans 0 [.var (.curr (.loc 0))] [.var (.next (.loc 0))]
          (.var (.curr (.ttype 0))) .fls (.var (.curr (.ttype 2))) .fls
        = [.implies (.var (.curr (.loc 0)))
            (.band (.var (.next (.loc 0))) (.mkOr []))] := by
  constructor <;> decide

/-- C4 amended: `get_trans` performs no nonemptiness check on
{stutterT, progressT}.  For a location with FALSE `stutterT`, FALSE
`rankT` and empty `progressT` it emits exactly one clause, whose
outgoing-edge disjunction is empty (FALSE), so the clause is equivalent
to the negation of the source-location value. -/
theorem c4_amended_empty_disjunction (l : Location) (idx : Nat)
    (lvals x_lvals : List BForm) (ss rk pg rd : BForm)
    (hst : l.stutterT = .fls) (hrk : l.rankT = .fls)
    (hpr : l.progressT = []) (hrd : rd = .fls) :
    l.get_trans idx lvals x_lvals ss rk pg rd
      = [.implies (lvals.getD idx .fls)
          (.band (x_lvals.getD idx .fls) (.mkOr []))] ∧
    ∀ σ σ' : HState,
      beval σ σ'
        (.implies (lvals.getD idx .fls)
          (.band (x_lvals.getD idx .fls) (.mkOr [])))
        = !beval σ σ' (lvals.getD idx .fls) := by
  subst hrd
  constructor
  · simp [Location.get_trans, hst, hrk, hpr, Location.progress,
      Location.dsts, PyDict.get, PyDict.intEntries, BForm.isFls,
      BForm.mkOr]
  · intro σ σ'
    simp [beval, BForm.mkOr]

/-- Witness for `c4_amended_empty_disjunction` at the concrete C4
location and inputs. -/
theorem c4_amended_witness :
    c4loc.get_trans 0 [.var (.curr (.loc 0))] [.var (.next (.loc 0))]
        (.var (.curr (.ttype 0))) .fls (.var (.curr (.ttype 2))) .fls
      = [.implies (.var (.curr (.loc 0)))
          (.band (.var (.next (.loc 0))) (.mkOr []))] :=
  (c4_amended_empty_disjunction c4loc 0 _ _ _ _ _ _
    (by decide) (by decide) (by decide) rfl).1

/-- The ranking function used in the C3 scenario (four distinct
predicate symbols). -/
def c3rf : RankFun :=
  ⟨.var (.curr (.user 6)), .var (.curr (.user 7)),
   .var (.curr (.user 8)), .var (.curr (.user 9))⟩

/-- A location with a ranking function and ranked transition but no
progress edge at all (in particular none targeting itself). -/
def c3loc : Location :=
  Location.init .tru none none (some (.var (.curr (.user 5)))) (some c3rf)

/-- C3 counterexample: although location index 0 is not in `c3loc`'s
progress set, the self-transition disjunct emitted for it contains the
RANKED case, and that case is conjoined with `rf.is_ranked()` (rank
strictly above minimum), not with the rank-at-minimum condition. -/
theorem c3_ranked_case_without_self_progress :
    c3loc.progress 0 = none ∧
      (c3loc.get_trans 0 [.var (.curr (.loc 0))] [.var (.next (.loc 0))]
          (.var (.curr (.ttype 0))) (.var (.curr (.ttype 1)))
          (.var (.curr (.ttype 2))) (.var (.curr .rankdec))).head?
        = some (.implies (.var (.curr (.loc 0)))
            (.band (.var (.next (.loc 0)))
              (.band (.var (.curr (.ttype 1)))
                (.var (.curr (.user 6)))))) := by
  constructor <;> decide

/-- C3 amended: whenever `rankT` is non-trivial (hence a ranking
function exists), the self-transition disjunct contains the RANKED case
conjoined with `rf.is_ranked()` regardless of the progress set, while
the rank-at-minimum condition is conjoined with the PROGRESS cases
(self-targeting and otherwise) instead. -/
theorem c3_amended_ranked_case_shape (l : Location) (r : RankFun)
    (idx : Nat) (lvals x_lvals : List BForm) (ss rk pg rd : BForm)
    (hrk : l.rankT.isFls = false) (hrf : l.rf = some r) :
    (l.get_trans idx lvals x_lvals ss rk pg rd).head?
      = some (.implies (lvals.getD idx .fls)
          (.mkOr (.band (x_lvals.getD idx .fls)
            (.mkOr ((if l.stutterT.isFls then [] else [ss])
              ++ [.band rk r.isRanked]
              ++ (if (l.progress idx).isSome then [.band pg r.isMin]
                  else [])))
            :: ((l.dsts.filter (· ≠ idx)).map fun dst =>
                  BForm.mkAnd [x_lvals.getD dst .fls, pg, r.isMin])))) := by
  simp only [Location.get_trans, hrk, Location.rfD, hrf, Option.getD,
    Bool.false_eq_true, if_false, List.cons_append, List.head?]
  by_cases hp : (l.progress idx).isSome <;> simp [hp]

/-- Witness for `c3_amended_ranked_case_shape` at the concrete C3
location. -/
theorem c3_amended_witness :
    (c3loc.get_trans 0 [.var (.curr (.loc 0))] [.var (.next (.loc 0))]
        (.var (.curr (.ttype 0))) (.var (.curr (.ttype 1)))
        (.var (.curr (.ttype 2))) (.var (.curr .rankdec))).head?
      = some (.implies (.var (.curr (.loc 0)))
          (.mkOr (.band (.var (.next (.loc 0)))
            (.mkOr ((if c3loc.stutterT.isFls then [] else
                      [BForm.var (.curr (.ttype 0))])
              ++ [.band (.var (.curr (.ttype 1))) c3rf.isRanked]
              ++ (if (c3loc.progress 0).isSome then
                    [.band (.var (.curr (.ttype 2))) c3rf.isMin]
                  else [])))
            :: ((c3loc.dsts.filter (· ≠ 0)).map fun dst =>
                  BForm.mkAnd [[BForm.var (.next (.loc 0))].getD dst .fls,
                    .var (.curr (.ttype 2)), c3rf.isMin])))) :=
  c3_amended_ranked_case_shape c3loc c3rf 0 _ _ _ _ _ _
    (by decide) (by decide)

/-- C10: on a location built without a ranking function, `set_rank`
changes nothing observable: `rankT` stays FALSE, `rf` stays `None`,
`ranked_region` stays FALSE and `get_trans` emits the same clauses
(in particular no ranked-transition clause, since `rankT` is FALSE). -/
theorem c10_set_rank_unobservable (l : Location) (t : BForm) (r : RankFun)
    (hrf : l.rf = none) (hrk : l.rankT = .fls) :
    (l.set_rank t r).rankT = .fls ∧
    (l.set_rank t r).rf = none ∧
    (l.set_rank t r).ranked_region = .fls ∧
    ∀ idx lvals x_lvals ss rk pg rd,
      (l.set_rank t r).get_trans idx lvals x_lvals ss rk pg rd
        = l.get_trans idx lvals x_lvals ss rk pg rd := by
  refine ⟨by simp [Location.set_rank, hrk], by simp [Location.set_rank, hrf],
    by simp [Location.set_rank, Location.ranked_region, hrf], ?_⟩
  intro idx lvals x_lvals ss rk pg rd
  simp [Location.set_rank, Location.get_trans, Location.rfD,
    Location.progress, Location.dsts]

/-- Witness for `c10_set_rank_unobservable` on a concrete location. -/
theorem c10_witness :
    ((Location.init .tru).set_rank (.var (.curr (.user 1)))
        c3rf).rankT = .fls :=
  (c10_set_rank_unobservable (Location.init .tru)
    (.var (.curr (.user 1))) c3rf (by decide) (by decide)).1

end LocationClaims

/-! ### Hint: compilation into an activable transition system -/

/-- Modelled from the spec: `expr_utils.new_enum` (not under `src/`)
allocates a fresh one-hot encoding over `n` values: one fresh boolean
symbol per value, value `i` being "symbol `i` true, all others false". -/
def oneHotVal (f : Nat → HSym) (n i : Nat) : BForm :=
  BForm.mkAnd ((List.range n).map fun j =>
    if j = i then .var (.curr (f j)) else .bnot (.var (.curr (f j))))

/-- Modelled from the spec: the symbol list and value list returned by
`new_enum`; `f` names the fresh symbols (locations use `HSym.loc`,
transition types use `HSym.ttype`). -/
def newEnum (f : Nat → HSym) (n : Nat) : List HSym × List BForm :=
  ((List.range n).map f, (List.range n).map (oneHotVal f n))

/-- Modelled from the spec: `trans_system.TransSystem` (not under
`src/`) is a transition-system fragment: a symbol set, a list of
initial-state predicates and a list of transition predicates;
`add_init`/`ext_init`/`add_trans`/`ext_trans` append to the lists. -/
structure TransSystem where
  symbs : List HSym
  init : List BForm
  trans : List BForm

/-- `hint.Hint`: ordered list of locations plus the lazily-allocated
encoding fields, all `None` until `get_trans_system` first runs
(mirroring `Hint.__init__`). -/
structure Hint where
  owned_symbs : List HSym
  all_symbs : List HSym
  locs : List Location := []
  ts_loc_symbs : Option (List HSym) := none
  ts_lvals : Option (List BForm) := none
  trans_type_symbs : Option (List HSym) := none
  t_is_stutter : Option BForm := none
  t_is_ranked : Option BForm := none
  t_is_progress : Option BForm := none
  is_rank_decr : Option BForm := none

namespace Hint

/-- `Hint.add`: asserts that the hint is not yet compiled
(`ts_loc_symbs` and `ts_lvals` still `None`), then appends. -/
def add (h : Hint) (loc : Location) : Option Hint :=
  if h.ts_loc_symbs.isNone && h.ts_lvals.isNone then
    some { h with locs := h.locs ++ [loc] }
  else none

/-- `Hint.set_locs`: asserts that the hint is not yet compiled, then
replaces the location list. -/
def set_locs (h : Hint) (locs : List Location) : Option Hint :=
  if h.ts_loc_symbs.isNone && h.ts_lvals.isNone then
    some { h with locs := locs }
  else none

/-- `Hint.get_trans_system(active)`: compiles the hint into a
transition-system fragment plus the `¬inactive` "currently active"
predicate.  Returns the updated hint (the Python method mutates `self`)
together with the fragment and the predicate. -/
def get_trans_system (h : Hint) (active : HSym) :
    Hint × TransSystem × BForm :=
  let h1 :=
    if h.ts_loc_symbs.isNone then
      let e1 := newEnum HSym.loc (h.locs.length + 1)
      let e2 := newEnum HSym.ttype 3
      { h with ts_loc_symbs := some e1.1, ts_lvals := some e1.2,
               trans_type_symbs := some e2.1,
               t_is_stutter := some (e2.2.getD 0 .fls),
               t_is_ranked := some (e2.2.getD 1 .fls),
               t_is_progress := some (e2.2.getD 2 .fls) }
    else h
  let symbs0 : List HSym :=
    h1.ts_loc_symbs.getD [] ++ h1.trans_type_symbs.getD [] ++ [active]
  let noRf := h1.locs.all fun l => l.rf.isNone
  let h2 :=
    if noRf then { h1 with t_is_ranked := some .fls, is_rank_decr := some .fls }
    else { h1 with is_rank_decr := some (.var (.curr .rankdec)) }
  let symbs1 := if noRf then symbs0 else symbs0 ++ [HSym.rankdec]
  let lvals := h2.ts_lvals.getD []
  let x_lvals := lvals.map (toNext symbs1)
  let symbs := h2.all_symbs ++ symbs1
  let inactive := lvals.getD (lvals.length - 1) .fls
  let x_inactive := x_lvals.getD (x_lvals.length - 1) .fls
  let t_is_stutter := h2.t_is_stutter.getD .fls
  let x_t_is_stutter := toNext symbs t_is_stutter
  -- invar: loc = i -> region(i) & assume(i)
  let init1 : List BForm :=
    (List.zip lvals h2.locs).map fun p =>
      .implies p.1 (.band p.2.region p.2.assume)
  -- invar: inactive | (\/ loc = i)
  let init2 := init1 ++ [.mkOr lvals]
  let trans1 := init2.map (toNext symbs)
  let n_active : BForm := .bnot (.var (.curr active))
  -- init: ! active -> inactive & trans_type = stutter
  let init3 := init2 ++ [.implies n_active (.band inactive t_is_stutter)]
  let ird := h2.is_rank_decr.getD .fls
  let init4 :=
    if !ird.isFls then init3 ++ [.biff ird (h2.t_is_ranked.getD .fls)]
    else init3
  -- trans: ! active -> inactive' & t_is_stutter'
  let trans2 := trans1 ++ [.implies n_active (.band x_inactive x_t_is_stutter)]
  let trans3 :=
    if !ird.isFls then
      let x_ird := symb2nextF ird
      -- is_ranked -> x_is_rank_decr ; x_is_rank_decr -> rank_decr | is_ranked
      trans2 ++ [.implies (h2.t_is_ranked.getD .fls) x_ird,
                 .implies x_ird (.bor ird (h2.t_is_ranked.getD .fls))]
    else trans2
  let trans4 := trans3 ++
    (h2.locs.enum.map fun p =>
      p.2.get_trans p.1 lvals x_lvals (h2.t_is_stutter.getD .fls)
        (h2.t_is_ranked.getD .fls) (h2.t_is_progress.getD .fls) ird).flatten
  (h2, ⟨symbs, init4, trans4⟩, .bnot inactive)

end Hint

/-- A run of a transition-system fragment: the first state satisfies
every initial predicate and every consecutive pair of states satisfies
every transition predicate. -/
def TransSystem.isRun (T : TransSystem) (ρ : Nat → HState) : Prop :=
  (T.init.all fun f => beval (ρ 0) (ρ 1) f) = true ∧
    ∀ i : Nat, (T.trans.all fun f => beval (ρ i) (ρ (i + 1)) f) = true

/-- Every variable of an n-ary conjunction comes from one of the
conjuncts. -/
theorem mkAnd_fvars : ∀ (l : List BForm) (v : HVar),
    v ∈ (BForm.mkAnd l).fvars → ∃ p ∈ l, v ∈ p.fvars
  | [], v, hv => by simp [BForm.mkAnd, BForm.fvars] at hv
  | [p], v, hv => ⟨p, by simp, by simpa [BForm.mkAnd] using hv⟩
  | p :: q :: rest, v, hv => by
    simp only [BForm.mkAnd, BForm.fvars, List.mem_append] at hv
    rcases hv with hv | hv
    · exact ⟨p, by simp, hv⟩
    · obtain ⟨r, hr, hvr⟩ := mkAnd_fvars (q :: rest) v hv
      exact ⟨r, List.mem_cons_of_mem p hr, hvr⟩

/-- A one-hot value formula only mentions current-state copies of the
encoding symbols. -/
theorem oneHotVal_onlyCurr {S : List HSym} {f : Nat → HSym} {m i : Nat}
    (hf : ∀ j < m, f j ∈ S) : OnlyCurrIn S (oneHotVal f m i) := by
  intro v hv
  obtain ⟨p, hp, hvp⟩ := mkAnd_fvars _ v hv
  simp only [List.mem_map, List.mem_range] at hp
  obtain ⟨j, hj, rfl⟩ := hp
  refine ⟨f j, hf j hj, ?_⟩
  by_cases hji : j = i
  · subst hji; simpa [BForm.fvars] using hvp
  · simpa [hji, BForm.fvars] using hvp

/-- `getD` over a mapped range. -/
theorem getD_map_range {α : Type} (g : Nat → α) (d : α) {m i : Nat}
    (him : i < m) : ((List.range m).map g).getD i d = g i := by
  rw [List.getD_eq_getElem?_getD, List.getElem?_map, List.getElem?_range him]
  rfl

/-- On a fresh hint, the "currently active" predicate returned by
`get_trans_system` is the negation of the one-hot value of the extra
inactive location. -/
theorem gts_active_pred (h : Hint) (active : HSym)
    (h0 : h.ts_loc_symbs = none) :
    (h.get_trans_system active).2.2
      = .bnot (oneHotVal HSym.loc (h.locs.length + 1) h.locs.length) := by
  simp only [Hint.get_trans_system, h0, Option.isNone_none, if_true,
    Option.getD_some, newEnum]
  by_cases hr : h.locs.all (fun l => l.rf.isNone) <;>
    simp [hr, getD_map_range (m := h.locs.length + 1)
      (i := h.locs.length) _ _ (Nat.lt_succ_self _)]

/-- On a fresh hint, the stutter transition-type value is the first
one-hot value of the three-valued type encoding. -/
theorem gts_stutter (h : Hint) (active : HSym)
    (h0 : h.ts_loc_symbs = none) :
    (h.get_trans_system active).1.t_is_stutter
      = some (oneHotVal HSym.ttype 3 0) := by
  simp only [Hint.get_trans_system, h0, Option.isNone_none, if_true,
    Option.getD_some, newEnum]
  by_cases hr : h.locs.all (fun l => l.rf.isNone) <;>
    simp [hr, getD_map_range (m := 3) (i := 0) _ _ (by decide)]

/-- On a fresh hint, the initial predicates contain the deactivation
clause `¬active → inactive ∧ t_is_stutter`. -/
theorem gts_init_mem (h : Hint) (active : HSym)
    (h0 : h.ts_loc_symbs = none) :
    BForm.implies (.bnot (.var (.curr active)))
        (.band (oneHotVal HSym.loc (h.locs.length + 1) h.locs.length)
          (oneHotVal HSym.ttype 3 0))
      ∈ (h.get_trans_system active).2.1.init := by
  simp only [Hint.get_trans_system, h0, Option.isNone_none, if_true,
    Option.getD_some, newEnum]
  by_cases hr : h.locs.all (fun l => l.rf.isNone) <;>
    simp [hr, getD_map_range (m := h.locs.length + 1)
        (i := h.locs.length) _ _ (Nat.lt_succ_self _),
      getD_map_range (m := 3) (i := 0) _ _ (by decide),
      BForm.isFls, List.mem_append, List.mem_cons]

/-- On a fresh hint, the transition predicates contain the deactivation
clause `¬active → inactive' ∧ t_is_stutter'`, with the primed formulas
obtained by `to_next` over symbol sets containing the respective
encoding symbols. -/
theorem gts_trans_mem (h : Hint) (active : HSym)
    (h0 : h.ts_loc_symbs = none) :
    ∃ S1 S2 : List HSym,
      (∀ j < h.locs.length + 1, HSym.loc j ∈ S1) ∧
      (∀ j < 3, HSym.ttype j ∈ S2) ∧
      BForm.implies (.bnot (.var (.curr active)))
          (.band
            (toNext S1 (oneHotVal HSym.loc (h.locs.length + 1)
              h.locs.length))
            (toNext S2 (oneHotVal HSym.ttype 3 0)))
        ∈ (h.get_trans_system active).2.1.trans := by
  simp only [Hint.get_trans_system, h0, Option.isNone_none, if_true,
    Option.getD_some, newEnum]
  by_cases hr : h.locs.all (fun l => l.rf.isNone)
  · refine ⟨(List.range (h.locs.length + 1)).map HSym.loc
        ++ (List.range 3).map HSym.ttype ++ [active],
      h.all_symbs ++ ((List.range (h.locs.length + 1)).map HSym.loc
        ++ (List.range 3).map HSym.ttype ++ [active]), ?_, ?_, ?_⟩
    · intro j hj
      exact List.mem_append_left _ (List.mem_append_left _
        (List.mem_map_of_mem _ (List.mem_range.mpr hj)))
    · intro j hj
      exact List.mem_append_right _ (List.mem_append_left _
        (List.mem_append_right _
          (List.mem_map_of_mem _ (List.mem_range.mpr hj))))
    · simp [hr, getD_map_range (m := h.locs.length + 1)
          (i := h.locs.length) _ _ (Nat.lt_succ_self _),
        getD_map_range (m := 3) (i := 0) _ _ (by decide),
        List.getD_eq_getElem?_getD, List.getElem?_map,
        BForm.isFls, List.mem_append, List.mem_cons]
  · refine ⟨((List.range (h.locs.length + 1)).map HSym.loc
        ++ (List.range 3).map HSym.ttype ++ [active]) ++ [HSym.rankdec],
      h.all_symbs ++ (((List.range (h.locs.length + 1)).map HSym.loc
        ++ (List.range 3).map HSym.ttype ++ [active]) ++ [HSym.rankdec]),
      ?_, ?_, ?_⟩
    · intro j hj
      exact List.mem_append_left _ (List.mem_append_left _
        (List.mem_append_left _
          (List.mem_map_of_mem _ (List.mem_range.mpr hj))))
    · intro j hj
      exact List.mem_append_right _ (List.mem_append_left _
        (List.mem_append_left _ (List.mem_append_right _
          (List.mem_map_of_mem _ (List.mem_range.mpr hj)))))
    · simp [hr, getD_map_range (m := h.locs.length + 1)
          (i := h.locs.length) _ _ (Nat.lt_succ_self _),
        getD_map_range (m := 3) (i := 0) _ _ (by decide),
        List.getD_eq_getElem?_getD, List.getElem?_map,
        BForm.isFls, List.mem_append, List.mem_cons]

/-- C1 amended: in every run of the compiled transition system in which
`active` is false at every step, the hint is pinned to its inactive
sentinel location (the returned "currently active" predicate evaluates
to false) with the stutter transition-type selected, at every step.
(The hint's owned symbols are not constrained while inactive — see the
accompanying counterexample.) -/
theorem c1_amended_inactive_stutter_pinned (h : Hint) (active : HSym)
    (ρ : Nat → HState) (h0 : h.ts_loc_symbs = none)
    (hrun : (h.get_trans_system active).2.1.isRun ρ)
    (hact : ∀ i, ρ i active = false) :
    ∀ i, beval (ρ i) (ρ (i + 1)) (h.get_trans_system active).2.2 = false ∧
      beval (ρ i) (ρ (i + 1))
        ((h.get_trans_system active).1.t_is_stutter.getD .fls) = true := by
  intro i
  rw [gts_active_pred h active h0, gts_stutter h active h0]
  cases i with
  | zero =>
    have hall := hrun.1
    rw [List.all_eq_true] at hall
    have hc := hall _ (gts_init_mem h active h0)
    rw [beval_implies, beval_band, beval_bnot, beval_var_curr, hact 0]
      at hc
    simp only [Bool.not_false, Bool.not_true, Bool.false_or,
      Bool.and_eq_true] at hc
    exact ⟨by rw [beval_bnot, hc.1]; rfl, by simpa using hc.2⟩
  | succ k =>
    obtain ⟨S1, S2, hS1, hS2, hmem⟩ := gts_trans_mem h active h0
    have hall := hrun.2 k
    rw [List.all_eq_true] at hall
    have hc := hall _ hmem
    rw [beval_implies, beval_band, beval_bnot, beval_var_curr, hact k]
      at hc
    simp only [Bool.not_false, Bool.not_true, Bool.false_or,
      Bool.and_eq_true] at hc
    have h1 := hc.1
    have h2 := hc.2
    rw [beval_toNext_onlyCurr (oneHotVal_onlyCurr hS1) _ _ (ρ (k + 2))]
      at h1
    rw [beval_toNext_onlyCurr (oneHotVal_onlyCurr hS2) _ _ (ρ (k + 2))]
      at h2
    exact ⟨by rw [beval_bnot, h1]; rfl, by simpa using h2⟩

/-- The hint of the C1 scenario: one owned symbol `user 0`, a single
location with region TRUE and stutter transition TRUE, no ranking
function.  The activation symbol is `user 1`. -/
def c1hint : Hint :=
  { owned_symbs := [.user 0], all_symbs := [.user 0],
    locs := [Location.init .tru none (some .tru)] }

/-- The transition system compiled from `c1hint`. -/
def c1sys : TransSystem := (c1hint.get_trans_system (.user 1)).2.1

/-- First state of the C1 run: inactive location, stutter type, owned
symbol `user 0` false, `active` false. -/
def c1state0 : HState := fun s =>
  match s with
  | .loc 1 => true
  | .ttype 0 => true
  | _ => false

/-- Later states of the C1 run: as `c1state0` but with the owned symbol
`user 0` flipped to true. -/
def c1state1 : HState := fun s =>
  match s with
  | .user 0 => true
  | .loc 1 => true
  | .ttype 0 => true
  | _ => false

/-- The C1 run: `c1state0`, then `c1state1` forever. -/
def c1run : Nat → HState := fun i => if i = 0 then c1state0 else c1state1

/-- A symbol that is false at every step of a run. -/
def alwaysFalseAt (ρ : Nat → HState) (s : HSym) : Prop :=
  ∀ i, ρ i s = false

theorem c1run_isRun : c1sys.isRun c1run := by
  constructor
  · decide
  · intro i
    cases i with
    | zero => decide
    | succ k =>
      exact (by decide :
        (c1sys.trans.all fun f => beval c1state1 c1state1 f) = true)

theorem c1run_alwaysInactive : alwaysFalseAt c1run (.user 1) := by
  intro i
  cases i <;> rfl

/-- C1 counterexample: a run of the compiled system in which `active`
is false at every step while the owned symbol `user 0` changes value
between step 0 and step 1 — the inactive hint does not keep its owned
symbols constant. -/
theorem c1_owned_symbol_changes_while_inactive :
    c1sys.isRun c1run ∧ alwaysFalseAt c1run (.user 1) ∧
      HSym.user 0 ∈ c1hint.owned_symbs ∧
      ¬(c1run 0 (.user 0) = c1run 1 (.user 0)) :=
  ⟨c1run_isRun, c1run_alwaysInactive, by decide, by decide⟩

/-- Witness for `c1_amended_inactive_stutter_pinned` on the concrete C1
run: the hint is indeed reported inactive at step 0. -/
theorem c1_amended_witness :
    beval (c1run 0) (c1run 1)
      ((c1hint.get_trans_system (.user 1)).2.2) = false :=
  (c1_amended_inactive_stutter_pinned c1hint (.user 1) c1run rfl
    c1run_isRun c1run_alwaysInactive 0).1

/-- C9: after `get_trans_system` has run, the location-encoding fields
are set, so any subsequent `add` or `set_locs` fails its precondition
assertion: the location list of a compiled hint can no longer be
mutated. -/
theorem c9_compiled_hint_is_frozen (h : Hint) (active : HSym)
    (loc : Location) (locs : List Location) :
    ((h.get_trans_system active).1.add loc = none) ∧
      ((h.get_trans_system active).1.set_locs locs = none) := by
  have hs : (h.get_trans_system active).1.ts_loc_symbs.isNone = false := by
    simp only [Hint.get_trans_system]
    cases hn : h.ts_loc_symbs <;>
      by_cases hr : h.locs.all (fun l => l.rf.isNone) <;>
        simp [hn, hr]
  constructor <;> simp [Hint.add, Hint.set_locs, hs]

/-!
### The linear-expression normalizer of `src/ineq.py`

The arithmetic fragment of pysmt terms handled by `Expr`/`Ineq`:
`+ - * /`, rational constants and symbols.  We work in the real theory,
with `ℚ` for both constants and coefficients (Python uses ints and
`Fraction`s).  Division is total with `x / 0 = 0`, used consistently on
both sides of every equivalence.
-/

/-- A pysmt symbol of the arithmetic theory, tagged current/next as in
`expr_utils.symb_is_next`. -/
structure IVar where
  base : Nat
  primed : Bool
  deriving DecidableEq, Repr

/-- Arithmetic terms.  pysmt's n-ary `Plus`/`Times` are nested binary
applications here. -/
inductive ATerm where
  | const (q : ℚ)
  | sym (v : IVar)
  | add (a b : ATerm)
  | sub (a b : ATerm)
  | mul (a b : ATerm)
  | div (a b : ATerm)
  deriving DecidableEq, Repr

/-- Term evaluation over an assignment of rationals to symbols. -/
def evalA (σ : IVar → ℚ) : ATerm → ℚ
  | .const q => q
  | .sym v => σ v
  | .add a b => evalA σ a + evalA σ b
  | .sub a b => evalA σ a - evalA σ b
  | .mul a b => evalA σ a * evalA σ b
  | .div a b => evalA σ a / evalA σ b

/-- The free variables of a term (`env.fvo.walk`). -/
def ATerm.fv : ATerm → List IVar
  | .const _ => []
  | .sym v => [v]
  | .add a b => a.fv ++ b.fv
  | .sub a b => a.fv ++ b.fv
  | .mul a b => a.fv ++ b.fv
  | .div a b => a.fv ++ b.fv

/-- Evaluation only depends on the free variables. -/
theorem evalA_congr {t : ATerm} {σ τ : IVar → ℚ}
    (h : ∀ v ∈ t.fv, σ v = τ v) : evalA σ t = evalA τ t := by
  induction t with
  | const q => rfl
  | sym v => exact h v (by simp [ATerm.fv])
  | add a b iha ihb =>
    simp only [evalA, iha fun v hv => h v (by simp [ATerm.fv, hv]),
      ihb fun v hv => h v (by simp [ATerm.fv, hv])]
  | sub a b iha ihb =>
    simp only [evalA, iha fun v hv => h v (by simp [ATerm.fv, hv]),
      ihb fun v hv => h v (by simp [ATerm.fv, hv])]
  | mul a b iha ihb =>
    simp only [evalA, iha fun v hv => h v (by simp [ATerm.fv, hv]),
      ihb fun v hv => h v (by simp [ATerm.fv, hv])]
  | div a b iha ihb =>
    simp only [evalA, iha fun v hv => h v (by simp [ATerm.fv, hv]),
      ihb fun v hv => h v (by simp [ATerm.fv, hv])]

/-- A variable-free term evaluates the same under every assignment,
modelling `simplify(term).constant_value()`. -/
theorem evalA_of_fv_nil {t : ATerm} (h : t.fv = []) (σ : IVar → ℚ) :
    evalA σ t = evalA (fun _ => 0) t :=
  evalA_congr fun v hv => by rw [h] at hv; cases hv

/-- A monomial factor as stored in `symb2coef` keys: a bare symbol or an
opaque division sub-term (divisions are "preserved as opaque
monomials"). -/
inductive Atom where
  | sym (v : IVar)
  | div (a b : ATerm)
  deriving DecidableEq, Repr

/-- The term an atom stands for. -/
def Atom.term : Atom → ATerm
  | .sym v => .sym v
  | .div a b => .div a b

/-- A monomial key: a `fnode_key`-sorted list of factors.  The empty
list is the distinguished constant-`1` key (`self.number(1)`), and a
singleton is a bare symbol/division key; pysmt's `Times` of a singleton
list is the element itself, so both coincide with the source's keys. -/
abbrev Mono := List Atom

/-- An injective numeric encoding of rationals, used as a model of
pysmt's deterministic `fnode_key` total order. -/
def encQ (q : ℚ) : Nat :=
  Nat.pair (if q.num < 0 then 2 * (-q.num).toNat + 1 else 2 * q.num.toNat)
    q.den

/-- Deterministic encoding of terms for the `fnode_key` order. -/
def ATerm.enc : ATerm → Nat
  | .const q => Nat.pair 0 (encQ q)
  | .sym v => Nat.pair 1 (Nat.pair v.base (cond v.primed 1 0))
  | .add a b => Nat.pair 2 (Nat.pair a.enc b.enc)
  | .sub a b => Nat.pair 3 (Nat.pair a.enc b.enc)
  | .mul a b => Nat.pair 4 (Nat.pair a.enc b.enc)
  | .div a b => Nat.pair 5 (Nat.pair a.enc b.enc)

/-- Deterministic encoding of atoms. -/
def Atom.enc : Atom → Nat
  | .sym v => Nat.pair 0 (Nat.pair v.base (cond v.primed 1 0))
  | .div a b => Nat.pair 1 (Nat.pair a.enc b.enc)

/-- The `fnode_key` order on atoms: a fixed, deterministic total
preorder (pysmt keys by node id; any deterministic total order models
it). -/
def atomLe (a b : Atom) : Prop := a.enc ≤ b.enc

instance : DecidableRel atomLe := fun a b => Nat.decLe _ _

instance : IsTotal Atom atomLe := ⟨fun a b => Nat.le_total a.enc b.enc⟩

instance : IsTrans Atom atomLe := ⟨fun _ _ _ => Nat.le_trans⟩

/-- `sorted(symbs, key=fnode_key)`. -/
def sortAtoms (l : List Atom) : List Atom := l.insertionSort atomLe

theorem sortAtoms_perm (l : List Atom) : (sortAtoms l).Perm l :=
  List.perm_insertionSort atomLe l

theorem sortAtoms_idem (l : List Atom) :
    sortAtoms (sortAtoms l) = sortAtoms l :=
  List.Sorted.insertionSort_eq (List.sorted_insertionSort atomLe l)

theorem sortAtoms_singleton (a : Atom) : sortAtoms [a] = [a] := rfl

/-- Encoding of monomials, for sorting the keys of a coefficient map. -/
def Mono.enc : Mono → Nat
  | [] => 0
  | a :: rest => Nat.pair (Atom.enc a) (Mono.enc rest) + 1

/-- The `fnode_key` order on monomial keys. -/
def monoLe (a b : Mono) : Prop := a.enc ≤ b.enc

instance : DecidableRel monoLe := fun a b => Nat.decLe _ _

/-- `sorted(self.symb2coef.keys(), key=fnode_key)`. -/
def sortMonos (l : List Mono) : List Mono := l.insertionSort monoLe

theorem sortMonos_perm (l : List Mono) : (sortMonos l).Perm l :=
  List.perm_insertionSort monoLe l

/-- `Expr.symb2coef`: a `defaultdict(int)` from monomial keys to
rational coefficients, as an insertion-ordered association list. -/
abbrev Coef := List (Mono × ℚ)

namespace Coef

/-- Reading `symb2coef[m]` (contribution 0 when the key is absent, as
for a `defaultdict(int)` read). -/
def get (c : Coef) (m : Mono) : ℚ :=
  match c with
  | [] => 0
  | (k, v) :: rest => if k = m then v else get rest m

/-- `m in symb2coef`. -/
def hasKey (c : Coef) (m : Mono) : Bool :=
  match c with
  | [] => false
  | (k, _) :: rest => k = m || hasKey rest m

/-- Writing `symb2coef[m] = q`: overwrite in place, else append. -/
def set (c : Coef) (m : Mono) (q : ℚ) : Coef :=
  match c with
  | [] => [(m, q)]
  | (k, v) :: rest =>
    if k = m then (k, q) :: rest else (k, v) :: set rest m q

/-- `symb2coef.pop(m, None)`. -/
def erase (c : Coef) (m : Mono) : Coef :=
  match c with
  | [] => []
  | (k, v) :: rest => if k = m then rest else (k, v) :: erase rest m

/-- `symb2coef[m] += q` on a `defaultdict` (no zero pruning). -/
def addNP (c : Coef) (m : Mono) (q : ℚ) : Coef :=
  c.set m (c.get m + q)

/-- `symb2coef[m] += q` followed by
`if symb2coef[m] == 0: symb2coef.pop(m, None)`. -/
def addP (c : Coef) (m : Mono) (q : ℚ) : Coef :=
  if c.get m + q = 0 then c.erase m else c.set m (c.get m + q)

/-- The key list of the map. -/
def keys (c : Coef) : List Mono := c.map Prod.fst

end Coef

/-- Evaluation of a monomial: the product of its factors. -/
def evalMono (σ : IVar → ℚ) (m : Mono) : ℚ :=
  (m.map fun a => evalA σ a.term).prod

/-- Evaluation of a coefficient map: the sum of
`coefficient × monomial` over the entries. -/
def evalC (σ : IVar → ℚ) (c : Coef) : ℚ :=
  (c.map fun e => e.2 * evalMono σ e.1).sum

theorem evalMono_sortAtoms (σ : IVar → ℚ) (l : List Atom) :
    evalMono σ (sortAtoms l) = evalMono σ l :=
  ((sortAtoms_perm l).map _).prod_eq

theorem evalMono_append (σ : IVar → ℚ) (l₁ l₂ : List Atom) :
    evalMono σ (l₁ ++ l₂) = evalMono σ l₁ * evalMono σ l₂ := by
  simp [evalMono, List.prod_append]

theorem evalC_set (σ : IVar → ℚ) (c : Coef) (m : Mono) (q : ℚ) :
    evalC σ (c.set m q)
      = evalC σ c - c.get m * evalMono σ m + q * evalMono σ m := by
  induction c with
  | nil => simp [Coef.set, Coef.get, evalC]
  | cons e rest ih =>
    by_cases hk : e.1 = m
    · subst hk
      simp [Coef.set, Coef.get, evalC] <;> ring
    · simp only [Coef.set, Coef.get, hk, if_false, evalC, List.map_cons,
        List.sum_cons] at *
      rw [ih]
      ring

theorem evalC_erase (σ : IVar → ℚ) (c : Coef) (m : Mono) :
    evalC σ (c.erase m) = evalC σ c - c.get m * evalMono σ m := by
  induction c with
  | nil => simp [Coef.erase, Coef.get, evalC]
  | cons e rest ih =>
    by_cases hk : e.1 = m
    · subst hk
      simp [Coef.erase, Coef.get, evalC] <;> ring
    · simp only [Coef.erase, Coef.get, hk, if_false, evalC, List.map_cons,
        List.sum_cons] at *
      rw [ih]
      ring

theorem evalC_addNP (σ : IVar → ℚ) (c : Coef) (m : Mono) (q : ℚ) :
    evalC σ (c.addNP m q) = evalC σ c + q * evalMono σ m := by
  rw [Coef.addNP, evalC_set]
  ring

theorem evalC_addP (σ : IVar → ℚ) (c : Coef) (m : Mono) (q : ℚ) :
    evalC σ (c.addP m q) = evalC σ c + q * evalMono σ m := by
  rw [Coef.addP]
  by_cases h0 : c.get m + q = 0
  · rw [if_pos h0, evalC_erase]
    have : q = -c.get m := by linarith
    rw [this]
    ring
  · rw [if_neg h0, evalC_set]
    ring

/-- Decomposition of the sum at one key (the popped first occurrence
carries the `get` value). -/
theorem evalC_get_erase (σ : IVar → ℚ) (c : Coef) (m : Mono) :
    evalC σ c = c.get m * evalMono σ m + evalC σ (c.erase m) := by
  rw [evalC_erase]
  ring

theorem keys_set_of_hasKey {c : Coef} {m : Mono} (h : c.hasKey m = true)
    (q : ℚ) : (c.set m q).keys = c.keys := by
  induction c with
  | nil => simp [Coef.hasKey] at h
  | cons e rest ih =>
    by_cases hk : e.1 = m
    · simp [Coef.set, hk, Coef.keys]
    · simp only [Coef.hasKey, Bool.or_eq_true, decide_eq_true_eq] at h
      rcases h with h | h
      · exact absurd h hk
      · simp [Coef.set, hk, Coef.keys] at *
        exact ih h

theorem keys_set_of_not_hasKey {c : Coef} {m : Mono}
    (h : c.hasKey m = false) (q : ℚ) :
    (c.set m q).keys = c.keys ++ [m] := by
  induction c with
  | nil => simp [Coef.set, Coef.keys]
  | cons e rest ih =>
    simp only [Coef.hasKey, Bool.or_eq_false_iff, decide_eq_false_iff_not]
      at h
    obtain ⟨h1, h2⟩ := h
    simp only [Coef.set, h1, if_false, Coef.keys, List.map_cons,
      List.cons_append, List.cons.injEq, true_and]
    exact ih h2

theorem hasKey_iff_mem_keys (c : Coef) (m : Mono) :
    c.hasKey m = true ↔ m ∈ c.keys := by
  induction c with
  | nil => simp [Coef.hasKey, Coef.keys]
  | cons e rest ih =>
    simp [Coef.hasKey, Coef.keys, ih]
    tauto

theorem keys_erase_sublist (c : Coef) (m : Mono) :
    (c.erase m).keys.Sublist c.keys := by
  induction c with
  | nil => simp [Coef.erase, Coef.keys]
  | cons e rest ih =>
    by_cases hk : e.1 = m
    · simp only [Coef.erase, hk, if_true, Coef.keys, List.map_cons]
      exact (List.sublist_cons_self _ _)
    · simp only [Coef.erase, hk, if_false, Coef.keys, List.map_cons]
      exact ih.cons₂ _

theorem nodup_keys_set {c : Coef} (h : c.keys.Nodup) (m : Mono) (q : ℚ) :
    (c.set m q).keys.Nodup := by
  by_cases hk : c.hasKey m
  · rw [keys_set_of_hasKey hk]
    exact h
  · rw [keys_set_of_not_hasKey (by simpa using hk)]
    refine List.Nodup.append h (by simp) ?_
    intro a ha hb
    simp only [List.mem_singleton] at hb
    subst hb
    exact hk ((hasKey_iff_mem_keys c a).mpr ha)

theorem nodup_keys_erase {c : Coef} (h : c.keys.Nodup) (m : Mono) :
    (c.erase m).keys.Nodup :=
  (keys_erase_sublist c m).nodup h

theorem nodup_keys_addNP {c : Coef} (h : c.keys.Nodup) (m : Mono)
    (q : ℚ) : (c.addNP m q).keys.Nodup :=
  nodup_keys_set h m _

theorem nodup_keys_addP {c : Coef} (h : c.keys.Nodup) (m : Mono)
    (q : ℚ) : (c.addP m q).keys.Nodup := by
  rw [Coef.addP]
  by_cases h0 : c.get m + q = 0
  · rw [if_pos h0]; exact nodup_keys_erase h m
  · rw [if_neg h0]; exact nodup_keys_set h m _

/-- With distinct keys, every entry's value is what `get` reads. -/
theorem get_of_mem_of_nodup {c : Coef} (h : c.keys.Nodup)
    {e : Mono × ℚ} (he : e ∈ c) : c.get e.1 = e.2 := by
  induction c with
  | nil => cases he
  | cons f rest ih =>
    have h' : f.1 ∉ rest.map Prod.fst ∧ (Coef.keys rest).Nodup := by
      simpa [Coef.keys, List.nodup_cons] using h
    rcases List.mem_cons.mp he with rfl | he'
    · simp [Coef.get]
    · have hne : f.1 ≠ e.1 := by
        intro hfe
        exact h'.1 (by rw [hfe]; exact List.mem_map_of_mem _ he')
      simp only [Coef.get, hne, if_false]
      exact ih h'.2 he'

/-! ### The term-distribution preprocessor -/

/-- Modelled from the spec: `rewritings.TimesDistributor` (not under
`src/`) is the external "push multiplication to the leaves" normalizer.
`tdList` returns the summands of the distributed form: multiplication
is distributed over sums, `Minus(a, b)` becomes `a + (-1)·b`, and
divisions are kept opaque. -/
def tdList : ATerm → List ATerm
  | .const q => [.const q]
  | .sym v => [.sym v]
  | .add a b => tdList a ++ tdList b
  | .sub a b => tdList a ++ (tdList b).map (fun t => .mul (.const (-1)) t)
  | .mul a b => (tdList a).bind fun x => (tdList b).map fun y => .mul x y
  | .div a b => [.div a b]

/-- Rebuild a term from summands (pysmt's n-ary `Plus`). -/
def mkPlusT : List ATerm → ATerm
  | [] => .const 0
  | [t] => t
  | t :: ts => .add t (mkPlusT ts)

/-- Modelled from the spec: the `td(formula)` call that pushes all
multiplications to the leaves. -/
def td (t : ATerm) : ATerm := mkPlusT (tdList t)

theorem sum_map_bind {α β : Type} (l : List α) (f : α → List β)
    (g : β → ℚ) :
    ((l.bind f).map g).sum = (l.map fun x => ((f x).map g).sum).sum := by
  induction l with
  | nil => simp
  | cons x xs ih => simp [ih]

theorem mkPlusT_eval (σ : IVar → ℚ) : ∀ l : List ATerm,
    evalA σ (mkPlusT l) = (l.map (evalA σ)).sum
  | [] => by simp [mkPlusT, evalA]
  | [t] => by simp [mkPlusT]
  | t :: u :: rest => by
    simp only [mkPlusT, evalA, List.map_cons, List.sum_cons]
    rw [mkPlusT_eval σ (u :: rest)]
    simp

theorem tdList_eval (σ : IVar → ℚ) : ∀ t : ATerm,
    ((tdList t).map (evalA σ)).sum = evalA σ t
  | .const q => by simp [tdList, evalA]
  | .sym v => by simp [tdList, evalA]
  | .add a b => by
    simp only [tdList, List.map_append, List.sum_append,
      tdList_eval σ a, tdList_eval σ b, evalA]
  | .sub a b => by
    simp only [tdList, List.map_append, List.sum_append, List.map_map,
      tdList_eval σ a, evalA]
    have : ((tdList b).map ((evalA σ) ∘ fun t => ATerm.mul (.const (-1)) t))
        = (tdList b).map (fun t => -1 * evalA σ t) := by
      refine List.map_congr_left fun x _ => ?_
      simp [evalA]
    rw [this, List.sum_map_mul_left, tdList_eval σ b]
    ring
  | .mul a b => by
    simp only [tdList, evalA]
    rw [sum_map_bind]
    have h1 : ∀ x ∈ tdList a,
        (((tdList b).map fun y => ATerm.mul x y).map (evalA σ)).sum
          = evalA σ x * evalA σ b := by
      intro x _
      rw [List.map_map]
      have h2 : ((evalA σ) ∘ fun y => ATerm.mul x y)
          = fun y => evalA σ x * evalA σ y := by
        funext y
        simp [evalA]
      rw [h2, List.sum_map_mul_left, tdList_eval σ b]
    rw [List.map_congr_left h1, List.sum_map_mul_right, tdList_eval σ a]
  | .div a b => by simp [tdList, evalA]

theorem td_eval (σ : IVar → ℚ) (t : ATerm) : evalA σ (td t) = evalA σ t := by
  rw [td, mkPlusT_eval, tdList_eval]

/-- Terms acceptable as factors inside the `Times` branch of
`plus_fnode` (no sums or differences below a product — guaranteed by
the distributor, asserted by the source). -/
def IsFactor : ATerm → Bool
  | .const _ => true
  | .sym _ => true
  | .div _ _ => true
  | .mul a b => IsFactor a && IsFactor b
  | _ => false

/-- Terms acceptable to the `plus_fnode` processing loop: sums of
factors. -/
def GoOk : ATerm → Bool
  | .add a b => GoOk a && GoOk b
  | t => IsFactor t

theorem tdList_isFactor : ∀ t : ATerm, ∀ s ∈ tdList t, IsFactor s = true
  | .const _, s, hs => by
    simp only [tdList, List.mem_singleton] at hs
    subst hs; rfl
  | .sym _, s, hs => by
    simp only [tdList, List.mem_singleton] at hs
    subst hs; rfl
  | .div _ _, s, hs => by
    simp only [tdList, List.mem_singleton] at hs
    subst hs; rfl
  | .add a b, s, hs => by
    simp only [tdList, List.mem_append] at hs
    rcases hs with hs | hs
    · exact tdList_isFactor a s hs
    · exact tdList_isFactor b s hs
  | .sub a b, s, hs => by
    simp only [tdList, List.mem_append, List.mem_map] at hs
    rcases hs with hs | ⟨y, hy, rfl⟩
    · exact tdList_isFactor a s hs
    · simp only [IsFactor, Bool.and_eq_true]
      exact ⟨by decide, tdList_isFactor b y hy⟩
  | .mul a b, s, hs => by
    simp only [tdList, List.mem_bind, List.mem_map] at hs
    obtain ⟨x, hx, y, hy, rfl⟩ := hs
    simp only [IsFactor, Bool.and_eq_true]
    exact ⟨tdList_isFactor a x hx, tdList_isFactor b y hy⟩

theorem goOk_of_isFactor {t : ATerm} (h : IsFactor t = true) :
    GoOk t = true := by
  cases t <;> simp_all [IsFactor, GoOk]

theorem goOk_mkPlusT : ∀ l : List ATerm,
    (∀ s ∈ l, IsFactor s = true) → GoOk (mkPlusT l) = true
  | [], _ => rfl
  | [t], h => goOk_of_isFactor (h t (by simp))
  | t :: u :: rest, h => by
    simp only [mkPlusT, GoOk, Bool.and_eq_true]
    refine ⟨goOk_of_isFactor (h t (by simp)), ?_⟩
    exact goOk_mkPlusT (u :: rest) fun s hs => h s (List.mem_cons_of_mem _ hs)

theorem goOk_td (t : ATerm) : GoOk (td t) = true :=
  goOk_mkPlusT _ (tdList_isFactor t)

/-! ### `Expr.plus_fnode` -/

/-- The factor-collection inner loop of the `Times` branch of
`Expr.plus_fnode` (lines 434-466): flattens nested products, folds
constant and variable-free factors into the running constant, collects
symbols and (non-constant) divisions as monomial factors; a `Plus` or
`Minus` factor fails the branch's assertions. -/
def collectFactors : ATerm → Option (ℚ × List Atom)
  | .mul a b => do
    let pa ← collectFactors a
    let pb ← collectFactors b
    pure (pa.1 * pb.1, pa.2 ++ pb.2)
  | .sym v => some (1, [.sym v])
  | .const q => some (q, [])
  | .div a b =>
    if (ATerm.div a b).fv = [] then
      some (evalA (fun _ => 0) (.div a b), [])
    else some (1, [.div a b])
  | .add _ _ => none
  | .sub _ _ => none

theorem collectFactors_sem : ∀ {t : ATerm} {p : ℚ × List Atom},
    collectFactors t = some p → ∀ σ, evalA σ t = p.1 * evalMono σ p.2
  | .mul a b, p, hp, σ => by
    simp only [collectFactors, Option.bind_eq_bind, Option.bind_eq_some]
      at hp
    obtain ⟨pa, hpa, pb, hpb, hp⟩ := hp
    obtain rfl : (pa.1 * pb.1, pa.2 ++ pb.2) = p := by simpa using hp
    rw [evalA, collectFactors_sem hpa σ, collectFactors_sem hpb σ,
      evalMono_append]
    ring
  | .sym v, p, hp, σ => by
    obtain rfl : (1, [Atom.sym v]) = p := by simpa [collectFactors] using hp
    simp [evalA, evalMono, Atom.term]
  | .const q, p, hp, σ => by
    obtain rfl : (q, ([] : List Atom)) = p := by
      simpa [collectFactors] using hp
    simp [evalA, evalMono]
  | .div a b, p, hp, σ => by
    by_cases hfv : (ATerm.div a b).fv = []
    · obtain rfl : (evalA (fun _ => 0) (.div a b), ([] : List Atom)) = p := by
        simpa [collectFactors, hfv] using hp
      simp only [evalMono, List.map_nil, List.prod_nil, mul_one]
      exact evalA_of_fv_nil hfv σ
    · obtain rfl : (1, [Atom.div a b]) = p := by
        simpa [collectFactors, hfv] using hp
      simp [evalMono, Atom.term]

theorem collectFactors_isSome : ∀ {t : ATerm}, IsFactor t = true →
    (collectFactors t).isSome = true
  | .mul a b, h => by
    simp only [IsFactor, Bool.and_eq_true] at h
    have ha := collectFactors_isSome h.1
    have hb := collectFactors_isSome h.2
    obtain ⟨pa, hpa⟩ := Option.isSome_iff_exists.mp ha
    obtain ⟨pb, hpb⟩ := Option.isSome_iff_exists.mp hb
    simp [collectFactors, hpa, hpb]
  | .sym v, _ => rfl
  | .const q, _ => rfl
  | .div a b, _ => by
    by_cases hfv : (ATerm.div a b).fv = [] <;> simp [collectFactors, hfv]

/-- Termination weight for the `plus_fnode` processing loop: the
`Minus` branch pushes `(-1)·b` back, which this weight dominates. -/
def pw : ATerm → Nat
  | .const _ => 1
  | .sym _ => 1
  | .div _ _ => 1
  | .add a b => pw a + pw b + 1
  | .mul a b => pw a + pw b + 1
  | .sub a b => pw a + pw b + 4

theorem pw_pos (t : ATerm) : 1 ≤ pw t := by
  cases t <;> simp [pw] <;> omega

/-- The stack-processing loop of `Expr.plus_fnode` (lines 413-472),
branch for branch: variable-free terms fold into the constant key (with
zero pruning); symbols add 1 to their own key (no pruning); `Plus`
recurses on both arguments; `Minus(a, b)` processes `a` and then the
product `(-1)·b` (the source pushes `td(Times(-1, b))`, and on the
`Minus`-free image of `td` — the only terms this loop ever receives —
the two coincide); `Times` runs the factor collection and adds the
constant to the sorted-factors key (with pruning); a division adds 1 to
its own key.  The `const` arm is subsumed by the variable-free test. -/
def go (c : Coef) (t : ATerm) : Option Coef :=
  if t.fv = [] then
    some (c.addP [] (evalA (fun _ => 0) t))
  else
    match t with
    | .sym v => some (c.addNP [.sym v] 1)
    | .add a b => do
      let c1 ← go c a
      go c1 b
    | .sub a b => do
      let c1 ← go c a
      go c1 (.mul (.const (-1)) b)
    | .mul a b =>
      match collectFactors (.mul a b) with
      | none => none
      | some p => some (c.addP (sortAtoms p.2) p.1)
    | .div a b => some (c.addNP [.div a b] 1)
    | .const q => some (c.addP [] q)
  termination_by pw t
  decreasing_by
    all_goals simp [pw]
    all_goals first
      | omega
      | (have hpa := pw_pos a; omega)

/-- `Expr.plus_fnode(formula)`: the loop starts from
`stack = [self.td(formula)]`. -/
def plusFnode (c : Coef) (t : ATerm) : Option Coef := go c (td t)

/-- Whenever the processing loop succeeds, the map's value grows by
exactly the processed term's value. -/
theorem go_sem : ∀ (c : Coef) (t : ATerm) (c' : Coef), go c t = some c' →
    ∀ σ, evalC σ c' = evalC σ c + evalA σ t := by
  intro c t
  induction c, t using go.induct with
  | case1 c t hfv =>
    intro c' h σ
    rw [go.eq_def, if_pos hfv] at h
    obtain rfl : c.addP [] (evalA (fun _ => 0) t) = c' := by simpa using h
    rw [evalC_addP, evalA_of_fv_nil hfv σ]
    simp [evalMono]
  | case2 c v hfv =>
    intro c' h σ
    rw [go, if_neg hfv] at h
    obtain rfl : c.addNP [.sym v] 1 = c' := by simpa using h
    rw [evalC_addNP]
    simp [evalMono, evalA, Atom.term]
  | case3 c a b hfv ih2 ih1 =>
    intro c' h σ
    rw [go, if_neg hfv] at h
    simp only [Option.bind_eq_bind, Option.bind_eq_some] at h
    obtain ⟨c1, h1, h2⟩ := h
    rw [ih1 c1 c' h2 σ, ih2 c1 h1 σ, evalA]
    ring
  | case4 c a b hfv ih2 ih1 =>
    intro c' h σ
    rw [go, if_neg hfv] at h
    simp only [Option.bind_eq_bind, Option.bind_eq_some] at h
    obtain ⟨c1, h1, h2⟩ := h
    rw [ih1 c1 c' h2 σ, ih2 c1 h1 σ]
    simp only [evalA]
    ring
  | case5 c a b hcf hfv =>
    intro c' h σ
    rw [go, if_neg hfv, hcf] at h
    simpa using h
  | case6 c a b p hp hfv =>
    intro c' h σ
    rw [go, if_neg hfv, hp] at h
    obtain rfl : c.addP (sortAtoms p.2) p.1 = c' := by simpa using h
    rw [evalC_addP, evalMono_sortAtoms, ← collectFactors_sem hp σ]
  | case7 c a b hfv =>
    intro c' h σ
    rw [go, if_neg hfv] at h
    obtain rfl : c.addNP [.div a b] 1 = c' := by simpa using h
    rw [evalC_addNP]
    simp [evalMono, evalA, Atom.term]
  | case8 c q hfv =>
    exact absurd rfl hfv

/-- The loop succeeds on every term of the shape the distributor
produces. -/
theorem go_isSome : ∀ (t : ATerm), GoOk t = true → ∀ c : Coef,
    (go c t).isSome = true := by
  intro t
  induction t with
  | const q =>
    intro _ c
    rw [go]
    simp [ATerm.fv]
  | sym v =>
    intro _ c
    rw [go]
    by_cases hfv : (ATerm.sym v).fv = [] <;> simp [hfv]
  | add a b iha ihb =>
    intro h c
    simp only [GoOk, Bool.and_eq_true] at h
    rw [go]
    by_cases hfv : (ATerm.add a b).fv = []
    · simp [hfv]
    · rw [if_neg hfv]
      obtain ⟨c1, hc1⟩ := Option.isSome_iff_exists.mp (iha h.1 c)
      simp only [Option.bind_eq_bind, hc1, Option.some_bind]
      exact ihb h.2 c1
  | sub a b iha ihb =>
    intro h _
    simp [GoOk, IsFactor] at h
  | mul a b iha ihb =>
    intro h c
    have h' : IsFactor (ATerm.mul a b) = true := by
      simpa [GoOk] using h
    rw [go]
    by_cases hfv : (ATerm.mul a b).fv = []
    · simp [hfv]
    · rw [if_neg hfv]
      obtain ⟨p, hp⟩ := Option.isSome_iff_exists.mp (collectFactors_isSome h')
      rw [hp]
      rfl
  | div a b iha ihb =>
    intro _ c
    rw [go]
    by_cases hfv : (ATerm.div a b).fv = [] <;> simp [hfv]

/-- The loop preserves distinctness of the map's keys. -/
theorem go_nodup : ∀ (c : Coef) (t : ATerm) (c' : Coef),
    go c t = some c' → c.keys.Nodup → c'.keys.Nodup := by
  intro c t
  induction c, t using go.induct with
  | case1 c t hfv =>
    intro c' h hn
    rw [go.eq_def, if_pos hfv] at h
    obtain rfl : c.addP [] (evalA (fun _ => 0) t) = c' := by simpa using h
    exact nodup_keys_addP hn _ _
  | case2 c v hfv =>
    intro c' h hn
    rw [go, if_neg hfv] at h
    obtain rfl : c.addNP [.sym v] 1 = c' := by simpa using h
    exact nodup_keys_addNP hn _ _
  | case3 c a b hfv ih2 ih1 =>
    intro c' h hn
    rw [go, if_neg hfv] at h
    simp only [Option.bind_eq_bind, Option.bind_eq_some] at h
    obtain ⟨c1, h1, h2⟩ := h
    exact ih1 c1 c' h2 (ih2 c1 h1 hn)
  | case4 c a b hfv ih2 ih1 =>
    intro c' h hn
    rw [go, if_neg hfv] at h
    simp only [Option.bind_eq_bind, Option.bind_eq_some] at h
    obtain ⟨c1, h1, h2⟩ := h
    exact ih1 c1 c' h2 (ih2 c1 h1 hn)
  | case5 c a b hcf hfv =>
    intro c' h hn
    rw [go, if_neg hfv, hcf] at h
    simpa using h
  | case6 c a b p hp hfv =>
    intro c' h hn
    rw [go, if_neg hfv, hp] at h
    obtain rfl : c.addP (sortAtoms p.2) p.1 = c' := by simpa using h
    exact nodup_keys_addP hn _ _
  | case7 c a b hfv =>
    intro c' h hn
    rw [go, if_neg hfv] at h
    obtain rfl : c.addNP [.div a b] 1 = c' := by simpa using h
    exact nodup_keys_addNP hn _ _
  | case8 c q hfv =>
    exact absurd rfl hfv

theorem plusFnode_sem {c : Coef} {t : ATerm} {c' : Coef}
    (h : plusFnode c t = some c') (σ : IVar → ℚ) :
    evalC σ c' = evalC σ c + evalA σ t := by
  rw [go_sem c (td t) c' h σ, td_eval]

theorem plusFnode_isSome (c : Coef) (t : ATerm) :
    (plusFnode c t).isSome = true :=
  go_isSome (td t) (goOk_td t) c

theorem plusFnode_nodup {c : Coef} {t : ATerm} {c' : Coef}
    (h : plusFnode c t = some c') (hn : c.keys.Nodup) : c'.keys.Nodup :=
  go_nodup c (td t) c' h hn

/-! ### Key shape invariants -/

/-- Every key of the map is `fnode_key`-sorted: the source only creates
the constant key, singleton symbol/division keys and `sorted(symbs)`
product keys. -/
def SortedKeys (c : Coef) : Prop := ∀ k ∈ c.keys, sortAtoms k = k

theorem mem_keys_set {c : Coef} {m k : Mono} {q : ℚ}
    (h : k ∈ (c.set m q).keys) : k ∈ c.keys ∨ k = m := by
  by_cases hk : c.hasKey m
  · rw [keys_set_of_hasKey hk] at h
    exact Or.inl h
  · rw [keys_set_of_not_hasKey (by simpa using hk)] at h
    rcases List.mem_append.mp h with h | h
    · exact Or.inl h
    · exact Or.inr (List.mem_singleton.mp h)

theorem sortedKeys_set {c : Coef} (hs : SortedKeys c) {m : Mono}
    (hm : sortAtoms m = m) (q : ℚ) : SortedKeys (c.set m q) := by
  intro k hk
  rcases mem_keys_set hk with h | rfl
  · exact hs k h
  · exact hm

theorem sortedKeys_erase {c : Coef} (hs : SortedKeys c) (m : Mono) :
    SortedKeys (c.erase m) := fun k hk =>
  hs k ((keys_erase_sublist c m).subset hk)

theorem sortedKeys_addNP {c : Coef} (hs : SortedKeys c) {m : Mono}
    (hm : sortAtoms m = m) (q : ℚ) : SortedKeys (c.addNP m q) :=
  sortedKeys_set hs hm _

theorem sortedKeys_addP {c : Coef} (hs : SortedKeys c) {m : Mono}
    (hm : sortAtoms m = m) (q : ℚ) : SortedKeys (c.addP m q) := by
  rw [Coef.addP]
  by_cases h0 : c.get m + q = 0
  · rw [if_pos h0]; exact sortedKeys_erase hs m
  · rw [if_neg h0]; exact sortedKeys_set hs hm _

/-- The loop only creates sorted keys. -/
theorem go_sorted : ∀ (c : Coef) (t : ATerm) (c' : Coef),
    go c t = some c' → SortedKeys c → SortedKeys c' := by
  intro c t
  induction c, t using go.induct with
  | case1 c t hfv =>
    intro c' h hs
    rw [go.eq_def, if_pos hfv] at h
    obtain rfl : c.addP [] (evalA (fun _ => 0) t) = c' := by simpa using h
    exact sortedKeys_addP hs rfl _
  | case2 c v hfv =>
    intro c' h hs
    rw [go, if_neg hfv] at h
    obtain rfl : c.addNP [.sym v] 1 = c' := by simpa using h
    exact sortedKeys_addNP hs (sortAtoms_singleton _) _
  | case3 c a b hfv ih2 ih1 =>
    intro c' h hs
    rw [go, if_neg hfv] at h
    simp only [Option.bind_eq_bind, Option.bind_eq_some] at h
    obtain ⟨c1, h1, h2⟩ := h
    exact ih1 c1 c' h2 (ih2 c1 h1 hs)
  | case4 c a b hfv ih2 ih1 =>
    intro c' h hs
    rw [go, if_neg hfv] at h
    simp only [Option.bind_eq_bind, Option.bind_eq_some] at h
    obtain ⟨c1, h1, h2⟩ := h
    exact ih1 c1 c' h2 (ih2 c1 h1 hs)
  | case5 c a b hcf hfv =>
    intro c' h hs
    rw [go, if_neg hfv, hcf] at h
    simpa using h
  | case6 c a b p hp hfv =>
    intro c' h hs
    rw [go, if_neg hfv, hp] at h
    obtain rfl : c.addP (sortAtoms p.2) p.1 = c' := by simpa using h
    exact sortedKeys_addP hs (sortAtoms_idem _) _
  | case7 c a b hfv =>
    intro c' h hs
    rw [go, if_neg hfv] at h
    obtain rfl : c.addNP [.div a b] 1 = c' := by simpa using h
    exact sortedKeys_addNP hs (sortAtoms_singleton _) _
  | case8 c q hfv =>
    exact absurd rfl hfv

theorem plusFnode_sorted {c : Coef} {t : ATerm} {c' : Coef}
    (h : plusFnode c t = some c') (hs : SortedKeys c) : SortedKeys c' :=
  go_sorted c (td t) c' h hs

/-! ### `Expr.pysmt_expr` and structural predicates -/

/-- The term a monomial key stands for (`number(1)` for the constant
key, the atom itself for a singleton, an n-ary `Times` otherwise). -/
def monoTerm : Mono → ATerm
  | [] => .const 1
  | [a] => a.term
  | a :: rest => .mul a.term (monoTerm rest)

theorem monoTerm_eval (σ : IVar → ℚ) : ∀ m : Mono,
    evalA σ (monoTerm m) = evalMono σ m
  | [] => by simp [monoTerm, evalA, evalMono]
  | [a] => by simp [monoTerm, evalMono]
  | a :: b :: rest => by
    simp only [monoTerm, evalA, monoTerm_eval σ (b :: rest)]
    simp [evalMono]

/-- `Expr._fnode_times(lhs, rhs)`: `coefficient × monomial` as a term,
with the source's special cases for coefficients 0 and 1 and for the
constant key. -/
def fnodeTimes (m : Mono) (q : ℚ) : ATerm :=
  if q = 0 then .const 0
  else if q = 1 then monoTerm m
  else match m with
    | [] => .const q
    | _ :: _ => .mul (monoTerm m) (.const q)

theorem fnodeTimes_eval (σ : IVar → ℚ) (m : Mono) (q : ℚ) :
    evalA σ (fnodeTimes m q) = q * evalMono σ m := by
  rw [fnodeTimes.eq_def]
  by_cases h0 : q = 0
  · simp [h0, evalA]
  · rw [if_neg h0]
    by_cases h1 : q = 1
    · simp [h1, monoTerm_eval]
    · rw [if_neg h1]
      match m with
      | [] => simp [evalA, evalMono]
      | a :: rest =>
        simp only [evalA, monoTerm_eval]
        ring

/-- `Expr.pysmt_expr`: sum the nonzero `coefficient × monomial` entries
over the `fnode_key`-sorted key list, the constant `0` term when none
remain. -/
def pysmt_expr (c : Coef) : ATerm :=
  let toAdd := ((sortMonos c.keys).filter fun k =>
    decide (c.get k ≠ 0)).map fun k => fnodeTimes k (c.get k)
  if toAdd.isEmpty then .const 0 else mkPlusT toAdd

theorem sum_map_filter_nz (g h : Mono → ℚ) : ∀ l : List Mono,
    ((l.filter fun k => decide (g k ≠ 0)).map fun k => g k * h k).sum
      = (l.map fun k => g k * h k).sum
  | [] => rfl
  | k :: rest => by
    rw [List.filter_cons]
    by_cases hk : g k = 0
    · rw [if_neg (by simp [hk]), sum_map_filter_nz g h rest]
      simp [hk]
    · rw [if_pos (by simp [hk])]
      simp only [List.map_cons, List.sum_cons]
      rw [sum_map_filter_nz g h rest]

theorem pysmt_expr_eval {c : Coef} (hn : c.keys.Nodup) (σ : IVar → ℚ) :
    evalA σ (pysmt_expr c) = evalC σ c := by
  have hsum : evalA σ (pysmt_expr c)
      = ((((sortMonos c.keys).filter fun k => decide (c.get k ≠ 0)).map
          fun k => fnodeTimes k (c.get k)).map (evalA σ)).sum := by
    rw [pysmt_expr]
    by_cases hta : (((sortMonos c.keys).filter fun k =>
        decide (c.get k ≠ 0)).map fun k => fnodeTimes k (c.get k)).isEmpty
    · rw [if_pos hta]
      rw [List.isEmpty_iff] at hta
      rw [hta]
      simp [evalA]
    · rw [if_neg hta, mkPlusT_eval]
  rw [hsum, List.map_map]
  have hcong : (((sortMonos c.keys).filter fun k =>
      decide (c.get k ≠ 0)).map ((evalA σ) ∘ fun k => fnodeTimes k (c.get k)))
      = (((sortMonos c.keys).filter fun k => decide (c.get k ≠ 0)).map
          fun k => c.get k * evalMono σ k) := by
    refine List.map_congr_left fun k _ => ?_
    simp [fnodeTimes_eval]
  rw [hcong, sum_map_filter_nz]
  have hperm : ((sortMonos c.keys).map fun k => c.get k * evalMono σ k).sum
      = (c.keys.map fun k => c.get k * evalMono σ k).sum :=
    ((sortMonos_perm c.keys).map _).sum_eq
  rw [hperm]
  have : (c.keys.map fun k => c.get k * evalMono σ k)
      = c.map fun e => e.2 * evalMono σ e.1 := by
    rw [Coef.keys, List.map_map]
    refine List.map_congr_left fun e he => ?_
    simp only [Function.comp_apply]
    rw [get_of_mem_of_nodup hn he]
  rw [this]
  rfl

/-- `Expr.is_zero`: empty map or all coefficients zero. -/
def isZero (c : Coef) : Bool := c.all fun e => decide (e.2 = 0)

/-- `Expr.is_one`: the map has exactly one entry, it is on the
constant-`1` key, and its value is exactly 1. -/
def isOne (c : Coef) : Bool :=
  if c.length = 0 then false
  else
    decide (c.length = 1) && c.hasKey [] && decide (c.get [] = 1)

/-- `Expr.plus`: add the other map's entries into self, entry by entry,
with no zero pruning. -/
def plusC (c d : Coef) : Coef := d.foldl (fun acc e => acc.addNP e.1 e.2) c

/-- The key produced for the product of two monomial keys: the factors
of both sides, re-sorted (when the left key is the constant-`1` key,
pysmt would keep a literal constant-1 factor in the key; that changes
only the key's identity, never its value, and no claim observes it). -/
def combineKey (k0 k1 : Mono) : Mono := sortAtoms (k0 ++ k1)

/-- `Expr.times` (binary case): annihilator/identity fast paths, then
the full cross product of monomial pairs into a fresh map, without zero
pruning. -/
def timesC (c d : Coef) : Coef :=
  if isZero c then c
  else if isZero d then []
  else if isOne d then c
  else
    c.foldl (fun acc e0 =>
      d.foldl (fun acc2 e1 =>
        acc2.addNP (combineKey e0.1 e1.1) (e0.2 * e1.2)) acc) []

theorem get_eq_zero_of_isZero {c : Coef} (h : isZero c = true) (m : Mono) :
    c.get m = 0 := by
  induction c with
  | nil => rfl
  | cons e rest ih =>
    simp only [isZero, List.all_cons, Bool.and_eq_true,
      decide_eq_true_eq] at h
    rw [Coef.get]
    by_cases hk : e.1 = m
    · simpa [hk] using h.1
    · simpa [hk] using ih (by simpa [isZero] using h.2)

theorem evalC_of_isZero {c : Coef} (h : isZero c = true) (σ : IVar → ℚ) :
    evalC σ c = 0 := by
  induction c with
  | nil => rfl
  | cons e rest ih =>
    simp only [isZero, List.all_cons, Bool.and_eq_true,
      decide_eq_true_eq] at h
    simp only [evalC, List.map_cons, List.sum_cons, h.1, zero_mul]
    simpa [evalC] using ih (by simpa [isZero] using h.2)

theorem isOne_iff (c : Coef) : isOne c = true ↔ c = [([], (1 : ℚ))] := by
  constructor
  · intro h
    cases c with
    | nil => simp [isOne] at h
    | cons e rest =>
      cases rest with
      | cons f rest2 => simp [isOne] at h
      | nil =>
        obtain ⟨k, v⟩ := e
        cases k with
        | nil =>
          simp only [isOne, Coef.hasKey, Coef.get] at h
          simp only [List.cons.injEq, Prod.mk.injEq, true_and, and_true]
          simpa using h
        | cons a krest =>
          simp [isOne, Coef.hasKey, Coef.get] at h
  · rintro rfl
    decide

theorem evalC_of_isOne {c : Coef} (h : isOne c = true) (σ : IVar → ℚ) :
    evalC σ c = 1 := by
  rw [(isOne_iff c).mp h]
  simp [evalC, evalMono]

theorem pysmt_expr_const0_of_isZero {d : Coef} (h : isZero d = true) :
    pysmt_expr d = .const 0 := by
  have hfil : ((sortMonos d.keys).filter fun k => decide (d.get k ≠ 0))
      = [] := by
    rw [List.filter_eq_nil_iff]
    intro k _
    simp [get_eq_zero_of_isZero h k]
  simp only [pysmt_expr]
  rw [hfil]
  rfl

section ExprClaims

/-- C5: the round-trip theorem.  For every arithmetic term `t` of the
supported grammar, building an `Expr` from `t` (i.e. `plus_fnode` on
the distributed form, starting from the empty map) succeeds, and
`pysmt_expr()` of the result is semantically equivalent to `t`; and for
any map with no nonzero coefficient, `pysmt_expr()` is the constant-0
term. -/
theorem c5_normalization_round_trip :
    (∀ t : ATerm, ∃ c : Coef, plusFnode [] t = some c ∧
      ∀ σ : IVar → ℚ, evalA σ (pysmt_expr c) = evalA σ t) ∧
    ∀ d : Coef, isZero d = true → pysmt_expr d = .const 0 := by
  constructor
  · intro t
    obtain ⟨c, hc⟩ := Option.isSome_iff_exists.mp (plusFnode_isSome [] t)
    refine ⟨c, hc, fun σ => ?_⟩
    rw [pysmt_expr_eval (plusFnode_nodup hc (by simp [Coef.keys])) σ,
      plusFnode_sem hc σ]
    simp [evalC]
  · exact fun d hd => pysmt_expr_const0_of_isZero hd

/-- A sample input term for the C5 witness: `x - 3·y'`. -/
def c5t0 : ATerm := .sub (.sym ⟨0, false⟩) (.mul (.const 3) (.sym ⟨1, true⟩))

/-- Witness for `c5_normalization_round_trip` at a concrete term and a
concrete all-zero map. -/
theorem c5_witness :
    (∃ c : Coef, plusFnode [] c5t0 = some c ∧
      ∀ σ : IVar → ℚ, evalA σ (pysmt_expr c) = evalA σ c5t0) ∧
    pysmt_expr [([Atom.sym ⟨2, false⟩], 0)] = .const 0 :=
  ⟨c5_normalization_round_trip.1 c5t0,
   c5_normalization_round_trip.2 _ rfl⟩

/-- The predicate C8 claims `is_one` to compute: the only nonzero
coefficient is exactly 1 and it sits on the constant-`1` key (zero
coefficients being conceptually absent). -/
def isOneClaim (c : Coef) : Bool :=
  decide (c.get [] = 1) && c.all fun e => decide (e.1 = ([] : Mono)) ||
    decide (e.2 = 0)

/-- A map with constant coefficient 1 and a symbol coefficient 1. -/
def c8e1 : Coef := [([], 1), ([Atom.sym ⟨0, false⟩], 1)]

/-- A map with the same symbol's coefficient -1. -/
def c8e2 : Coef := [([Atom.sym ⟨0, false⟩], -1)]

/-- C8 counterexample: `Expr.plus` produces a map holding a
zero-coefficient entry; its only nonzero coefficient is 1 on the
constant-`1` key, yet `is_one()` returns False because the map's length
is 2 — zero entries are not ignored by `is_one`. -/
theorem c8_zero_entry_defeats_isOne :
    isOne (plusC c8e1 c8e2) = false ∧
      isOneClaim (plusC c8e1 c8e2) = true ∧
      plusC c8e1 c8e2 = [([], 1), ([Atom.sym ⟨0, false⟩], 0)] := by
  refine ⟨rfl, by with_unfolding_all rfl, by with_unfolding_all rfl⟩

/-- C8 amended: `is_one()` returns true iff the map is literally the
one-entry map `{constant-1 key ↦ 1}`; any further entry, zero-valued or
not, makes it return false. -/
theorem c8_amended_isOne_iff_singleton (c : Coef) :
    isOne c = true ↔ c = [([], (1 : ℚ))] :=
  isOne_iff c

end ExprClaims

/-! ### Semantics of `Expr.times` -/

theorem evalMono_combineKey (σ : IVar → ℚ) (k0 k1 : Mono) :
    evalMono σ (combineKey k0 k1) = evalMono σ k0 * evalMono σ k1 := by
  rw [combineKey, evalMono_sortAtoms, evalMono_append]

theorem timesC_inner (σ : IVar → ℚ) (d : Coef) (e0 : Mono × ℚ) :
    ∀ acc : Coef,
    evalC σ (d.foldl (fun acc2 e1 =>
        acc2.addNP (combineKey e0.1 e1.1) (e0.2 * e1.2)) acc)
      = evalC σ acc + e0.2 * evalMono σ e0.1 * evalC σ d := by
  induction d with
  | nil => intro acc; simp [evalC]
  | cons e1 rest ih =>
    intro acc
    simp only [List.foldl_cons]
    rw [ih, evalC_addNP, evalMono_combineKey]
    simp only [evalC, List.map_cons, List.sum_cons]
    ring

theorem timesC_cross (σ : IVar → ℚ) (d : Coef) : ∀ (c acc : Coef),
    evalC σ (c.foldl (fun acc e0 => d.foldl (fun acc2 e1 =>
        acc2.addNP (combineKey e0.1 e1.1) (e0.2 * e1.2)) acc) acc)
      = evalC σ acc + evalC σ c * evalC σ d := by
  intro c
  induction c with
  | nil => intro acc; simp [evalC]
  | cons e0 rest ih =>
    intro acc
    simp only [List.foldl_cons]
    rw [ih, timesC_inner]
    simp only [evalC, List.map_cons, List.sum_cons]
    ring

theorem timesC_sem (σ : IVar → ℚ) (c d : Coef) :
    evalC σ (timesC c d) = evalC σ c * evalC σ d := by
  rw [timesC]
  by_cases hc : isZero c
  · rw [if_pos hc, evalC_of_isZero hc]
    simp
  · rw [if_neg hc]
    by_cases hd : isZero d
    · rw [if_pos hd, evalC_of_isZero hd]
      simp [evalC]
    · rw [if_neg hd]
      by_cases h1 : isOne d
      · rw [if_pos h1, evalC_of_isOne h1]
        ring
      · rw [if_neg h1, timesC_cross]
        simp [evalC]

theorem nodup_keys_inner (d : Coef) (e0 : Mono × ℚ) {acc : Coef}
    (hn : acc.keys.Nodup) :
    (d.foldl (fun acc2 e1 =>
      acc2.addNP (combineKey e0.1 e1.1) (e0.2 * e1.2)) acc).keys.Nodup := by
  induction d generalizing acc with
  | nil => exact hn
  | cons e1 rest ih =>
    simp only [List.foldl_cons]
    exact ih (nodup_keys_addNP hn _ _)

theorem timesC_nodup {c d : Coef} (hn : c.keys.Nodup) :
    (timesC c d).keys.Nodup := by
  rw [timesC]
  by_cases hc : isZero c
  · rw [if_pos hc]; exact hn
  · rw [if_neg hc]
    by_cases hd : isZero d
    · rw [if_pos hd]; simp [Coef.keys]
    · rw [if_neg hd]
      by_cases h1 : isOne d
      · rw [if_pos h1]; exact hn
      · rw [if_neg h1]
        have : ∀ (c' acc : Coef), acc.keys.Nodup →
            (c'.foldl (fun acc e0 => d.foldl (fun acc2 e1 =>
              acc2.addNP (combineKey e0.1 e1.1) (e0.2 * e1.2)) acc)
              acc).keys.Nodup := by
          intro c'
          induction c' with
          | nil => exact fun acc h => h
          | cons e0 rest ih =>
            intro acc h
            simp only [List.foldl_cons]
            exact ih _ (nodup_keys_inner d e0 h)
        exact this c [] (by simp [Coef.keys])

/-! ### Structural form of multiplication by the constant -1 -/

theorem get_eq_zero_of_not_hasKey {c : Coef} {m : Mono}
    (h : c.hasKey m = false) : c.get m = 0 := by
  induction c with
  | nil => rfl
  | cons e rest ih =>
    simp only [Coef.hasKey, Bool.or_eq_false_iff,
      decide_eq_false_iff_not] at h
    simp only [Coef.get, h.1, if_false]
    exact ih h.2

theorem set_of_not_hasKey {c : Coef} {m : Mono} (h : c.hasKey m = false)
    (q : ℚ) : c.set m q = c ++ [(m, q)] := by
  induction c with
  | nil => rfl
  | cons e rest ih =>
    simp only [Coef.hasKey, Bool.or_eq_false_iff,
      decide_eq_false_iff_not] at h
    simp only [Coef.set, h.1, if_false, List.cons_append,
      List.cons.injEq, true_and]
    exact ih h.2

theorem addNP_of_not_hasKey {c : Coef} {m : Mono} (h : c.hasKey m = false)
    (q : ℚ) : c.addNP m q = c ++ [(m, q)] := by
  rw [Coef.addNP, get_eq_zero_of_not_hasKey h, zero_add,
    set_of_not_hasKey h]

theorem keys_append (c d : Coef) : (c ++ d).keys = c.keys ++ d.keys :=
  List.map_append _ _ _

/-- The cross product with the right operand `{1-key ↦ -1}` negates
every coefficient in place (sorted, distinct keys). -/
theorem map_neg_of_isZero : ∀ {c : Coef}, isZero c = true →
    (c.map fun e => (e.1, -e.2)) = c
  | [], _ => rfl
  | e :: rest, hc => by
    simp only [isZero, List.all_cons, Bool.and_eq_true,
      decide_eq_true_eq] at hc
    have h1 : (e.1, -e.2) = e := by
      obtain ⟨k, v⟩ := e
      simp only at hc ⊢
      rw [hc.1]
      norm_num
    simp only [List.map_cons, h1, List.cons.injEq, true_and]
    exact map_neg_of_isZero (by simpa [isZero] using hc.2)

theorem timesC_negOne {c : Coef} (hn : c.keys.Nodup) (hs : SortedKeys c) :
    timesC c [([], -1)] = c.map fun e => (e.1, -e.2) := by
  rw [timesC]
  by_cases hc : isZero c
  · rw [if_pos hc, map_neg_of_isZero hc]
  · rw [if_neg hc, if_neg (by norm_num [isZero]),
      if_neg (by norm_num [isOne, Coef.hasKey, Coef.get])]
    have hfun : (fun (acc : Coef) (e0 : Mono × ℚ) =>
        [(([] : Mono), (-1 : ℚ))].foldl (fun acc2 e1 =>
          acc2.addNP (combineKey e0.1 e1.1) (e0.2 * e1.2)) acc)
        = fun acc e0 => acc.addNP (combineKey e0.1 []) (e0.2 * -1) := by
      funext acc e0
      simp
    rw [hfun]
    have main : ∀ (c' acc : Coef), (acc.keys ++ c'.keys).Nodup →
        SortedKeys c' →
        c'.foldl (fun acc e0 =>
            acc.addNP (combineKey e0.1 []) (e0.2 * -1)) acc
          = acc ++ c'.map fun e => (e.1, -e.2) := by
      intro c'
      induction c' with
      | nil => intro acc _ _; simp
      | cons e0 rest ih =>
        intro acc hnd hsk
        simp only [List.foldl_cons]
        have hkey : combineKey e0.1 [] = e0.1 := by
          rw [combineKey, List.append_nil]
          exact hsk e0.1 (by simp [Coef.keys])
        have hfresh : acc.hasKey e0.1 = false := by
          rw [← Bool.not_eq_true, hasKey_iff_mem_keys]
          intro hmem
          have hdisj := List.disjoint_of_nodup_append hnd
          exact hdisj hmem (by simp [Coef.keys])
        rw [hkey, addNP_of_not_hasKey hfresh, mul_neg_one]
        rw [ih (acc ++ [(e0.1, -e0.2)]) ?_ ?_]
        · simp
        · rw [keys_append]
          simp only [Coef.keys, List.map_cons, List.map_nil] at hnd ⊢
          rw [List.append_assoc]
          simpa using hnd
        · intro k hk
          exact hsk k (by
            simp only [Coef.keys, List.map_cons]
            exact List.mem_cons_of_mem _ hk)
    have := main c [] (by simpa using hn) hs
    simpa using this

/-! ### `Ineq._parse` -/

/-- The LHS of an `Ineq` under construction: a `defaultdict` from
monomial keys (products of non-parameter symbols) to coefficient
`Expr`s over the parameters. -/
abbrev LhsMap := List (Mono × Coef)

namespace LhsMap

/-- `lhs[k]` (the `defaultdict` default being a fresh empty `Expr`). -/
def getE (L : LhsMap) (k : Mono) : Coef :=
  match L with
  | [] => []
  | (k', c) :: rest => if k' = k then c else getE rest k

/-- Store `lhs[k] = c` (in place, or appended for a fresh key, as a
`defaultdict` access-then-mutate does). -/
def setE (L : LhsMap) (k : Mono) (c : Coef) : LhsMap :=
  match L with
  | [] => [(k, c)]
  | (k', c') :: rest =>
    if k' = k then (k', c) :: rest else (k', c') :: setE rest k c

end LhsMap

/-- `lhs[k].plus_const(q)`. -/
def lhsPlusConst (L : LhsMap) (k : Mono) (q : ℚ) : LhsMap :=
  L.setE k ((L.getE k).addNP [] q)

/-- `lhs[k].plus_fnode(t)`. -/
def lhsPlusFnode (L : LhsMap) (k : Mono) (t : ATerm) : Option LhsMap :=
  (plusFnode (L.getE k) t).map (L.setE k)

/-- The factor-collection loop of `Ineq._parse`'s `Times` branch (lines
159-191): flattens nested products, multiplies constant factors
together, separates parameter symbols (collected as coefficient
factors) from state symbols (collected as monomial atoms), keeps
divisions opaque; a `Plus`/`Minus` factor is a fatal assertion. -/
def collectFactorsP (params : List IVar) :
    ATerm → Option (ℚ × List Atom × List ATerm)
  | .mul a b => do
    let pa ← collectFactorsP params a
    let pb ← collectFactorsP params b
    pure (pa.1 * pb.1, pa.2.1 ++ pb.2.1, pa.2.2 ++ pb.2.2)
  | .const q => some (q, [], [])
  | .sym v =>
    if v ∈ params then some (1, [], [.sym v]) else some (1, [.sym v], [])
  | .div a b => some (1, [.div a b], [])
  | .add _ _ => none
  | .sub _ _ => none

/-- `mgr.Times(pysmt_num(const), *_params)`: the coefficient expression
of a product monomial. -/
def mulTerms (q : ℚ) (ps : List ATerm) : ATerm :=
  ps.foldl ATerm.mul (.const q)

/-- The stack loop of `Ineq._parse` (lines 147-203), branch for branch:
a term whose free symbols are all parameters is a "constant" folded
into the RHS `Expr`; a bare state symbol gets `+1` on its own key; sums
recurse; `Minus(a, b)` processes `a` then `(-1)·b` (the source pushes
the `td` of that product; on `td` images, which is all this loop ever
sees, the two coincide); a product goes through the factor collection,
its coefficient expression `plus_fnode`-added onto the sorted monomial
key; a division gets `+1` on its own key.  The `const` arm is
unreachable (constants have no free symbols); it stands for the
trailing fatal `assert False`. -/
def parseStep (params : List IVar) (st : LhsMap × Coef) (t : ATerm) :
    Option (LhsMap × Coef) :=
  if t.fv.all (· ∈ params) then
    (plusFnode st.2 t).map fun r => (st.1, r)
  else
    match t with
    | .sym v => some (lhsPlusConst st.1 [.sym v] 1, st.2)
    | .add a b => do
      let st1 ← parseStep params st a
      parseStep params st1 b
    | .sub a b => do
      let st1 ← parseStep params st a
      parseStep params st1 (.mul (.const (-1)) b)
    | .mul a b => do
      let p ← collectFactorsP params (.mul a b)
      let L ← lhsPlusFnode st.1 (sortAtoms p.2.1) (mulTerms p.1 p.2.2)
      some (L, st.2)
    | .div a b => some (lhsPlusConst st.1 [.div a b] 1, st.2)
    | .const _ => none
  termination_by pw t
  decreasing_by
    all_goals simp [pw]
    all_goals first
      | omega
      | (have hpa := pw_pos a; omega)

/-- `Ineq._parse` initialization for `arg0 OP arg1`: the stack starts
as `[td(arg0), td(Times(-1, arg1))]` and pops the negated right side
first. -/
def parseRaw (params : List IVar) (a0 a1 : ATerm) :
    Option (LhsMap × Coef) := do
  let st1 ← parseStep params ([], []) (td (.mul (.const (-1)) a1))
  parseStep params st1 (td a0)

/-- The nonzero-coefficient count of lines 207-214 (`tot_coefs`). -/
def nzCount (L : LhsMap) : Nat :=
  (L.map fun e => (e.2.filter fun en => decide (en.2 ≠ 0)).length).sum

/-- The negative-coefficient count of lines 207-214 (`neg_coefs`). -/
def negCount (L : LhsMap) : Nat :=
  (L.map fun e => (e.2.filter fun en => decide (en.2 < 0)).length).sum

/-- `Expr.times_fnode`. -/
def times_fnode (c : Coef) (t : ATerm) : Option Coef :=
  if t = .const 1 then some c
  else (plusFnode [] t).map fun d => timesC c d

theorem times_fnode_neg1 (c : Coef) :
    times_fnode c (.const (-1)) = some (timesC c [([], -1)]) := by
  with_unfolding_all rfl

/-- `expr.times_fnode(expr.number(-1))` applied to every LHS
coefficient expression (the `Expr` built from the constant -1
normalizes to the one-entry map `{1-key ↦ -1}`). -/
def flipLhs (L : LhsMap) : LhsMap :=
  L.map fun e => (e.1, timesC e.2 [([], -1)])

/-- The `is_equals` tail of `Ineq._parse` (lines 205-220): if strictly
more than half of the nonzero LHS coefficients are negative, negate
every LHS coefficient expression and return the accumulated RHS as is;
otherwise multiply the RHS by the constant-(-1) `Expr`
(`m_one_expr`). -/
def ineqParseEq (params : List IVar) (a0 a1 : ATerm) :
    Option (LhsMap × Coef) :=
  match parseRaw params a0 a1 with
  | none => none
  | some st =>
    if 2 * negCount st.1 > nzCount st.1 then
      some (flipLhs st.1, st.2)
    else
      some (st.1, timesC st.2 [([], -1)])

/-- Semantics of the LHS map: the sum of
`coefficient-expression × monomial` over the entries. -/
def lhsEval (σ : IVar → ℚ) (L : LhsMap) : ℚ :=
  (L.map fun e => evalC σ e.2 * evalMono σ e.1).sum

theorem lhsEval_setE (σ : IVar → ℚ) (L : LhsMap) (k : Mono) (c : Coef) :
    lhsEval σ (L.setE k c) = lhsEval σ L
      - evalC σ (L.getE k) * evalMono σ k + evalC σ c * evalMono σ k := by
  induction L with
  | nil => simp [LhsMap.setE, LhsMap.getE, lhsEval, evalC]
  | cons e rest ih =>
    by_cases hk : e.1 = k
    · subst hk
      simp [LhsMap.setE, LhsMap.getE, lhsEval] <;> ring
    · simp only [LhsMap.setE, LhsMap.getE, hk, if_false, lhsEval,
        List.map_cons, List.sum_cons] at *
      rw [ih]
      ring

theorem lhsPlusConst_sem (σ : IVar → ℚ) (L : LhsMap) (k : Mono) (q : ℚ) :
    lhsEval σ (lhsPlusConst L k q)
      = lhsEval σ L + q * evalMono σ k := by
  rw [lhsPlusConst, lhsEval_setE, evalC_addNP]
  simp [evalMono]
  ring

theorem lhsPlusFnode_sem {L : LhsMap} {k : Mono} {t : ATerm} {L' : LhsMap}
    (h : lhsPlusFnode L k t = some L') (σ : IVar → ℚ) :
    lhsEval σ L' = lhsEval σ L + evalA σ t * evalMono σ k := by
  rw [lhsPlusFnode] at h
  obtain ⟨c', hc', rfl⟩ := Option.map_eq_some'.mp h
  rw [lhsEval_setE, plusFnode_sem hc' σ]
  ring

theorem mulTerms_eval (σ : IVar → ℚ) : ∀ (ps : List ATerm) (acc : ATerm),
    evalA σ (ps.foldl ATerm.mul acc)
      = evalA σ acc * (ps.map (evalA σ)).prod
  | [], acc => by simp
  | p :: rest, acc => by
    simp only [List.foldl_cons, List.map_cons, List.prod_cons]
    rw [mulTerms_eval σ rest (acc.mul p)]
    simp only [evalA]
    ring

theorem collectFactorsP_sem {params : List IVar} :
    ∀ {t : ATerm} {p : ℚ × List Atom × List ATerm},
    collectFactorsP params t = some p →
    ∀ σ, evalA σ t = p.1 * evalMono σ p.2.1 * (p.2.2.map (evalA σ)).prod
  | .mul a b, p, hp, σ => by
    simp only [collectFactorsP, Option.bind_eq_bind, Option.bind_eq_some]
      at hp
    obtain ⟨pa, hpa, pb, hpb, hp⟩ := hp
    obtain rfl : (pa.1 * pb.1, pa.2.1 ++ pb.2.1, pa.2.2 ++ pb.2.2) = p := by
      simpa using hp
    rw [evalA, collectFactorsP_sem hpa σ, collectFactorsP_sem hpb σ,
      evalMono_append]
    simp only [List.map_append, List.prod_append]
    ring
  | .const q, p, hp, σ => by
    obtain rfl : (q, ([] : List Atom), ([] : List ATerm)) = p := by
      simpa [collectFactorsP] using hp
    simp [evalA, evalMono]
  | .sym v, p, hp, σ => by
    by_cases hv : v ∈ params
    · obtain rfl : (1, ([] : List Atom), [ATerm.sym v]) = p := by
        simpa [collectFactorsP, hv] using hp
      simp [evalA, evalMono]
    · obtain rfl : (1, [Atom.sym v], ([] : List ATerm)) = p := by
        simpa [collectFactorsP, hv] using hp
      simp [evalA, evalMono, Atom.term]
  | .div a b, p, hp, σ => by
    obtain rfl : (1, [Atom.div a b], ([] : List ATerm)) = p := by
      simpa [collectFactorsP] using hp
    simp [evalMono, Atom.term]

/-- Loop invariant of `Ineq._parse`: every processed term adds its
value to `Σ lhs + rhs`. -/
theorem parseStep_sem (params : List IVar) : ∀ (st : LhsMap × Coef)
    (t : ATerm) (st' : LhsMap × Coef),
    parseStep params st t = some st' →
    ∀ σ, lhsEval σ st'.1 + evalC σ st'.2
      = lhsEval σ st.1 + evalC σ st.2 + evalA σ t := by
  refine parseStep.induct params (fun st t => ∀ st',
    parseStep params st t = some st' →
    ∀ σ, lhsEval σ st'.1 + evalC σ st'.2
      = lhsEval σ st.1 + evalC σ st.2 + evalA σ t)
    ?_ ?_ ?_ ?_ ?_ ?_ ?_
  · intro st t hfv st' h σ
    rw [parseStep.eq_def, if_pos hfv] at h
    obtain ⟨r, hr, rfl⟩ := Option.map_eq_some'.mp h
    rw [plusFnode_sem hr σ]
    ring
  · intro st v hfv st' h σ
    rw [parseStep, if_neg hfv] at h
    obtain rfl : (lhsPlusConst st.1 [.sym v] 1, st.2) = st' := by
      simpa using h
    rw [lhsPlusConst_sem]
    simp [evalMono, evalA, Atom.term]
    ring
  · intro st a b hfv ih2 ih1 st' h σ
    rw [parseStep, if_neg hfv] at h
    simp only [Option.bind_eq_bind, Option.bind_eq_some] at h
    obtain ⟨st1, h1, h2⟩ := h
    have e1 := ih2 st1 h1 σ
    have e2 := ih1 st1 st' h2 σ
    rw [e2, e1, evalA]
    ring
  · intro st a b hfv ih2 ih1 st' h σ
    rw [parseStep, if_neg hfv] at h
    simp only [Option.bind_eq_bind, Option.bind_eq_some] at h
    obtain ⟨st1, h1, h2⟩ := h
    have e1 := ih2 st1 h1 σ
    have e2 := ih1 st1 st' h2 σ
    rw [e2, e1]
    simp only [evalA]
    ring
  · intro st a b hfv st' h σ
    rw [parseStep, if_neg hfv] at h
    simp only [Option.bind_eq_bind, Option.bind_eq_some] at h
    obtain ⟨p, hp, L', hL', hst⟩ := h
    obtain rfl : (L', st.2) = st' := by simpa using hst
    simp only
    rw [lhsPlusFnode_sem hL' σ, evalMono_sortAtoms, mulTerms,
      mulTerms_eval, collectFactorsP_sem hp σ]
    simp only [evalA]
    ring
  · intro st a b hfv st' h σ
    rw [parseStep, if_neg hfv] at h
    obtain rfl : (lhsPlusConst st.1 [.div a b] 1, st.2) = st' := by
      simpa using h
    rw [lhsPlusConst_sem]
    simp [evalMono, Atom.term]
    ring
  · intro st q hfv st' h σ
    rw [parseStep, if_neg hfv] at h
    cases h

theorem parseRaw_sem {params : List IVar} {a0 a1 : ATerm}
    {st : LhsMap × Coef} (h : parseRaw params a0 a1 = some st)
    (σ : IVar → ℚ) :
    lhsEval σ st.1 + evalC σ st.2 = evalA σ a0 - evalA σ a1 := by
  rw [parseRaw] at h
  simp only [Option.bind_eq_bind, Option.bind_eq_some] at h
  obtain ⟨st1, h1, h2⟩ := h
  have e1 := parseStep_sem params ([], []) _ st1 h1 σ
  have e2 := parseStep_sem params st1 _ st h2 σ
  rw [td_eval] at e1 e2
  have z1 : lhsEval σ ([] : LhsMap) = 0 := rfl
  have z2 : evalC σ ([] : Coef) = 0 := rfl
  have z3 : evalA σ ((ATerm.const (-1)).mul a1) = -1 * evalA σ a1 := rfl
  rw [z1, z2, z3] at e1
  linarith [e1, e2]

/-- Key-shape invariant of the LHS coefficient expressions: distinct,
sorted keys (maintained by every parse branch). -/
def LhsInv (L : LhsMap) : Prop :=
  ∀ e ∈ L, e.2.keys.Nodup ∧ SortedKeys e.2

theorem mem_setE : ∀ {L : LhsMap} {k : Mono} {c : Coef} {e : Mono × Coef},
    e ∈ L.setE k c → e ∈ L ∨ e = (k, c)
  | [], k, c, e, he => by
    simp only [LhsMap.setE, List.mem_singleton] at he
    exact Or.inr he
  | f :: rest, k, c, e, he => by
    by_cases hk : f.1 = k
    · simp only [LhsMap.setE, hk, if_true, List.mem_cons] at he
      rcases he with rfl | he
      · exact Or.inr rfl
      · exact Or.inl (List.mem_cons_of_mem _ he)
    · simp only [LhsMap.setE, hk, if_false, List.mem_cons] at he
      rcases he with rfl | he
      · exact Or.inl (by simp)
      · rcases mem_setE he with h | h
        · exact Or.inl (List.mem_cons_of_mem _ h)
        · exact Or.inr h

theorem getE_inv : ∀ {L : LhsMap}, LhsInv L → ∀ k : Mono,
    (L.getE k).keys.Nodup ∧ SortedKeys (L.getE k)
  | [], _, k => by
    constructor
    · simp [LhsMap.getE, Coef.keys]
    · intro m hm
      simp [LhsMap.getE, Coef.keys] at hm
  | f :: rest, h, k => by
    by_cases hk : f.1 = k
    · simpa [LhsMap.getE, hk] using h f (by simp)
    · simp only [LhsMap.getE, hk, if_false]
      exact getE_inv (fun e he => h e (List.mem_cons_of_mem _ he)) k

theorem lhsInv_setE {L : LhsMap} (h : LhsInv L) {k : Mono} {c : Coef}
    (hc : c.keys.Nodup ∧ SortedKeys c) : LhsInv (L.setE k c) := by
  intro e he
  rcases mem_setE he with h' | rfl
  · exact h e h'
  · exact hc

theorem lhsInv_plusConst {L : LhsMap} (h : LhsInv L) (k : Mono) (q : ℚ) :
    LhsInv (lhsPlusConst L k q) :=
  lhsInv_setE h ⟨nodup_keys_addNP (getE_inv h k).1 _ _,
    sortedKeys_addNP (getE_inv h k).2 rfl _⟩

theorem lhsInv_plusFnode {L : LhsMap} {k : Mono} {t : ATerm} {L' : LhsMap}
    (hL : lhsPlusFnode L k t = some L') (h : LhsInv L) : LhsInv L' := by
  rw [lhsPlusFnode] at hL
  obtain ⟨c', hc', rfl⟩ := Option.map_eq_some'.mp hL
  exact lhsInv_setE h ⟨plusFnode_nodup hc' (getE_inv h k).1,
    plusFnode_sorted hc' (getE_inv h k).2⟩

theorem parseStep_inv (params : List IVar) : ∀ (st : LhsMap × Coef)
    (t : ATerm) (st' : LhsMap × Coef),
    parseStep params st t = some st' → LhsInv st.1 → LhsInv st'.1 := by
  refine parseStep.induct params (fun st t => ∀ st',
    parseStep params st t = some st' → LhsInv st.1 → LhsInv st'.1)
    ?_ ?_ ?_ ?_ ?_ ?_ ?_
  · intro st t hfv st' h hi
    rw [parseStep.eq_def, if_pos hfv] at h
    obtain ⟨r, hr, rfl⟩ := Option.map_eq_some'.mp h
    exact hi
  · intro st v hfv st' h hi
    rw [parseStep, if_neg hfv] at h
    obtain rfl : (lhsPlusConst st.1 [.sym v] 1, st.2) = st' := by
      simpa using h
    exact lhsInv_plusConst hi _ _
  · intro st a b hfv ih2 ih1 st' h hi
    rw [parseStep, if_neg hfv] at h
    simp only [Option.bind_eq_bind, Option.bind_eq_some] at h
    obtain ⟨st1, h1, h2⟩ := h
    exact ih1 st1 st' h2 (ih2 st1 h1 hi)
  · intro st a b hfv ih2 ih1 st' h hi
    rw [parseStep, if_neg hfv] at h
    simp only [Option.bind_eq_bind, Option.bind_eq_some] at h
    obtain ⟨st1, h1, h2⟩ := h
    exact ih1 st1 st' h2 (ih2 st1 h1 hi)
  · intro st a b hfv st' h hi
    rw [parseStep, if_neg hfv] at h
    simp only [Option.bind_eq_bind, Option.bind_eq_some] at h
    obtain ⟨p, hp, L', hL', hst⟩ := h
    obtain rfl : (L', st.2) = st' := by simpa using hst
    exact lhsInv_plusFnode hL' hi
  · intro st a b hfv st' h hi
    rw [parseStep, if_neg hfv] at h
    obtain rfl : (lhsPlusConst st.1 [.div a b] 1, st.2) = st' := by
      simpa using h
    exact lhsInv_plusConst hi _ _
  · intro st q hfv st' h hi
    rw [parseStep, if_neg hfv] at h
    cases h

theorem parseRaw_inv {params : List IVar} {a0 a1 : ATerm}
    {st : LhsMap × Coef} (h : parseRaw params a0 a1 = some st) :
    LhsInv st.1 := by
  rw [parseRaw] at h
  simp only [Option.bind_eq_bind, Option.bind_eq_some] at h
  obtain ⟨st1, h1, h2⟩ := h
  refine parseStep_inv params st1 _ st h2 ?_
  refine parseStep_inv params ([], []) _ st1 h1 ?_
  intro e he
  cases he

/-! ### Coefficient counts and the sign flip -/

theorem sum_map_add {α : Type} (l : List α) (f g : α → ℕ) :
    (l.map fun x => f x + g x).sum = (l.map f).sum + (l.map g).sum := by
  induction l with
  | nil => rfl
  | cons x xs ih =>
    simp only [List.map_cons, List.sum_cons, ih]
    omega

theorem filter_nz_map_neg (c : Coef) :
    (((c.map fun en => (en.1, -en.2)).filter fun en =>
      decide (en.2 ≠ 0)).length)
      = ((c.filter fun en => decide (en.2 ≠ 0)).length) := by
  induction c with
  | nil => rfl
  | cons e rest ih =>
    have hb : decide (-e.2 ≠ 0) = decide (e.2 ≠ 0) := by
      rw [decide_eq_decide]
      simp
    simp only [List.map_cons, List.filter_cons, hb]
    cases hnz : decide (e.2 ≠ 0)
    · rw [if_neg (by simp [hnz]), if_neg (by simp [hnz])]
      exact ih
    · rw [if_pos (by simp [hnz]), if_pos (by simp [hnz])]
      simp only [List.length_cons, ih]

theorem filter_neg_map_neg (c : Coef) :
    (((c.map fun en => (en.1, -en.2)).filter fun en =>
      decide (en.2 < 0)).length)
      + ((c.filter fun en => decide (en.2 < 0)).length)
      = ((c.filter fun en => decide (en.2 ≠ 0)).length) := by
  induction c with
  | nil => rfl
  | cons e rest ih =>
    have hbneg : decide (-e.2 < 0) = decide (0 < e.2) := by
      rw [decide_eq_decide]
      exact neg_lt_zero
    simp only [List.map_cons, List.filter_cons, hbneg]
    rcases lt_trichotomy e.2 0 with h | h | h
    · rw [if_neg (by simp; linarith), if_pos (by simp [h]),
        if_pos (by simp [ne_of_lt h])]
      simp only [List.length_cons]
      omega
    · rw [if_neg (by simp [h]), if_neg (by simp [h]),
        if_neg (by simp [h])]
      exact ih
    · rw [if_pos (by simp [h]), if_neg (by simp; linarith),
        if_pos (by simp [ne_of_gt h])]
      simp only [List.length_cons]
      omega

theorem flipLhs_entry {L : LhsMap} (hi : LhsInv L) {e : Mono × Coef}
    (he : e ∈ L) :
    timesC e.2 [([], -1)] = e.2.map fun en => (en.1, -en.2) :=
  timesC_negOne (hi e he).1 (hi e he).2

theorem nzCount_flip {L : LhsMap} (hi : LhsInv L) :
    nzCount (flipLhs L) = nzCount L := by
  rw [nzCount, flipLhs, List.map_map, nzCount]
  refine congrArg List.sum (List.map_congr_left fun e he => ?_)
  simp only [Function.comp_apply]
  rw [flipLhs_entry hi he, filter_nz_map_neg]

theorem negCount_flip {L : LhsMap} (hi : LhsInv L) :
    negCount (flipLhs L) + negCount L = nzCount L := by
  rw [negCount, flipLhs, List.map_map, negCount, nzCount, ← sum_map_add]
  refine congrArg List.sum (List.map_congr_left fun e he => ?_)
  simp only [Function.comp_apply]
  rw [flipLhs_entry hi he, filter_neg_map_neg]

theorem lhsEval_flip (σ : IVar → ℚ) (L : LhsMap) :
    lhsEval σ (flipLhs L) = -lhsEval σ L := by
  rw [lhsEval, flipLhs, List.map_map, lhsEval]
  have : (L.map ((fun e => evalC σ e.2 * evalMono σ e.1) ∘
      fun e => (e.1, timesC e.2 [([], -1)])))
      = L.map fun e => -1 * (evalC σ e.2 * evalMono σ e.1) := by
    refine List.map_congr_left fun e _ => ?_
    simp only [Function.comp_apply]
    rw [timesC_sem]
    have : evalC σ [(([] : Mono), (-1 : ℚ))] = -1 := by
      simp [evalC, evalMono]
    rw [this]
    ring
  rw [this, List.sum_map_mul_left]
  ring

section IneqClaims

/-- C6: when strictly more than half of the nonzero LHS coefficients of
a parsed equality are negative, `_parse` negates the whole equality:
every LHS coefficient expression is multiplied by -1 while the
accumulated RHS is returned as is (the negation of the un-flipped
form's RHS).  The produced form has no more negative coefficients than
the un-flipped form (`st.1`), the same number of nonzero ones, and is
semantically equivalent to the input equality `a0 = a1`. -/
theorem c6_equality_sign_flip (params : List IVar) (a0 a1 : ATerm)
    (st : LhsMap × Coef) (hp : parseRaw params a0 a1 = some st)
    (hflip : 2 * negCount st.1 > nzCount st.1) :
    ineqParseEq params a0 a1 = some (flipLhs st.1, st.2) ∧
    nzCount (flipLhs st.1) = nzCount st.1 ∧
    negCount (flipLhs st.1) ≤ negCount st.1 ∧
    (∀ σ, lhsEval σ (flipLhs st.1) = -lhsEval σ st.1 ∧
      evalC σ st.2 = -evalC σ (timesC st.2 [([], -1)])) ∧
    ∀ σ, (lhsEval σ (flipLhs st.1) = evalC σ st.2 ↔
      evalA σ a0 = evalA σ a1) := by
  have hinv := parseRaw_inv hp
  have hnz := nzCount_flip hinv
  have hneg := negCount_flip hinv
  refine ⟨?_, hnz, by omega, ?_, ?_⟩
  · simp only [ineqParseEq, hp]
    rw [if_pos hflip]
  · intro σ
    refine ⟨lhsEval_flip σ st.1, ?_⟩
    rw [timesC_sem]
    have h1 : evalC σ [(([] : Mono), (-1 : ℚ))] = -1 := by
      simp [evalC, evalMono]
    rw [h1]
    ring
  · intro σ
    have hsem := parseRaw_sem hp σ
    rw [lhsEval_flip]
    constructor <;> intro h <;> linarith

/-- The C6 witness equality `-x + -y = 0`. -/
def c6a0 : ATerm :=
  .add (.mul (.const (-1)) (.sym ⟨0, false⟩))
    (.mul (.const (-1)) (.sym ⟨1, false⟩))

/-- The parse state of the C6 witness before the sign handling: both
LHS coefficients are -1, the RHS is empty. -/
def c6st : LhsMap × Coef :=
  ([([Atom.sym ⟨0, false⟩], [([], -1)]),
    ([Atom.sym ⟨1, false⟩], [([], -1)])], [])

/-- Witness for `c6_equality_sign_flip` on `-x + -y = 0`. -/
theorem c6_witness :
    ineqParseEq [] c6a0 (.const 0) = some (flipLhs c6st.1, c6st.2) :=
  (c6_equality_sign_flip [] c6a0 (.const 0) c6st
    (by with_unfolding_all rfl) (by with_unfolding_all decide)).1

end IneqClaims

/-! ### `eq2assign` -/

/-- Result of `eq2assign`: the `(TRUE, None, None)` tautology sentinel,
the `(None, None, None)` failure sentinel, or a
`(symbol, expression, is_next_state)` triple. -/
inductive EqRes where
  | triv
  | fail
  | assign (s : IVar) (e : ATerm) (isNext : Bool)
  deriving DecidableEq, Repr

/-- Modelled from the spec: `expr_utils.symb_is_next` — the next-state
tag of a symbol. -/
def symbIsNext (v : IVar) : Bool := v.primed

/-- `k.is_symbol()`: a key that is a bare symbol. -/
def monoSym : Mono → Option IVar
  | [Atom.sym v] => some v
  | _ => none

theorem monoSym_eq_some {k : Mono} {v : IVar}
    (h : monoSym k = some v) : k = [Atom.sym v] := by
  match k, h with
  | [Atom.sym w], h =>
    simp only [monoSym, Option.some.injEq] at h
    rw [h]

/-- One accepted candidate step of the selection loop (lines 615-626):
the two store sites and the break test, returning the updated state and
whether the loop breaks. -/
def scanStep (isReal : Bool) (st : Option (IVar × ℚ) × Bool)
    (v0 : IVar) (v : ℚ) : (Option (IVar × ℚ) × Bool) × Bool :=
  let is_next := symbIsNext v0
  let st1 :=
    if v = -1 ∨ v = 1 ∨ (!st.2 && is_next) = true then
      (some (v0, v), is_next)
    else st
  let upd2 : Bool :=
    match st1.1 with
    | none => true
    | some pc =>
      decide ((v < 0 ∧ 0 < pc.2) ∨ (pc.2 < 0 ∧ v > pc.2) ∨
        (pc.2 > 0 ∧ v < pc.2))
  let st2 := if isReal && upd2 then (some (v0, v), is_next) else st1
  let brk : Bool :=
    (match st2.1 with
     | some pc => decide (pc.2 = -1)
     | none => false) && is_next
  (st2, brk)

/-- The candidate-selection loop of `eq2assign` (lines 610-626),
heuristics reproduced faithfully: scan the sorted keys; a bare symbol
key with nonzero coefficient is a candidate, considered only while no
next-state candidate is held or the key is next-state itself; store it
when its coefficient is ±1 or it is the first next-state candidate;
for real-typed equalities additionally apply the source's
smaller/sign-preference rules; break when the held coefficient is -1
on a next-state key. -/
def scanGo (isReal : Bool) (c : Coef) :
    (Option (IVar × ℚ) × Bool) → List Mono → Option (IVar × ℚ) × Bool
  | st, [] => st
  | st, k :: rest =>
    match monoSym k with
    | none => scanGo isReal c st rest
    | some v0 =>
      let v := c.get k
      if v = 0 then scanGo isReal c st rest
      else if !st.2 || symbIsNext v0 then
        let p := scanStep isReal st v0 v
        if p.2 then p.1 else scanGo isReal c p.1 rest
      else scanGo isReal c st rest

/-- Whatever the heuristics decide, a step either keeps the held
candidate or stores the current key's symbol and coefficient. -/
theorem scanStep_cases (isReal : Bool) (st : Option (IVar × ℚ) × Bool)
    (v0 : IVar) (v : ℚ) :
    (scanStep isReal st v0 v).1.1 = st.1 ∨
      (scanStep isReal st v0 v).1.1 = some (v0, v) := by
  simp only [scanStep]
  by_cases h1 : (v = -1 ∨ v = 1 ∨ (!st.2 && symbIsNext v0) = true)
  · rw [if_pos h1]
    split
    · exact Or.inr rfl
    · exact Or.inr rfl
  · rw [if_neg h1]
    split
    · exact Or.inr rfl
    · exact Or.inl rfl

/-- Any candidate the scan returns is a nonzero entry of the map at a
bare-symbol key. -/
theorem scanGo_spec (isReal : Bool) (c : Coef) : ∀ (ks : List Mono)
    (st : Option (IVar × ℚ) × Bool),
    (∀ pc, st.1 = some pc → c.get [Atom.sym pc.1] = pc.2 ∧ pc.2 ≠ 0) →
    ∀ pc', (scanGo isReal c st ks).1 = some pc' →
      c.get [Atom.sym pc'.1] = pc'.2 ∧ pc'.2 ≠ 0 := by
  intro ks
  induction ks with
  | nil => exact fun st hst pc' h => hst pc' h
  | cons k rest ih =>
    intro st hst pc' h
    rw [scanGo] at h
    cases hms : monoSym k with
    | none =>
      simp only [hms] at h
      exact ih st hst pc' h
    | some v0 =>
      obtain rfl := monoSym_eq_some hms
      simp only [hms] at h
      by_cases hv : c.get [Atom.sym v0] = 0
      · rw [if_pos hv] at h
        exact ih st hst pc' h
      · rw [if_neg hv] at h
        have hstep : ∀ pc,
            (scanStep isReal st v0 (c.get [Atom.sym v0])).1.1 = some pc →
            c.get [Atom.sym pc.1] = pc.2 ∧ pc.2 ≠ 0 := by
          intro pc hpc
          rcases scanStep_cases isReal st v0 (c.get [Atom.sym v0]) with
            hcase | hcase
          · exact hst pc (by rw [← hcase]; exact hpc)
          · rw [hcase] at hpc
            obtain rfl : (v0, c.get [Atom.sym v0]) = pc := by
              simpa using hpc
            exact ⟨rfl, hv⟩
        by_cases hg : (!st.2 || symbIsNext v0) = true
        · rw [if_pos hg] at h
          by_cases hb :
              (scanStep isReal st v0 (c.get [Atom.sym v0])).2 = true
          · rw [if_pos hb] at h
            exact hstep pc' h
          · rw [if_neg hb] at h
            exact ih _ hstep pc' h
        · rw [if_neg hg] at h
          exact ih st hst pc' h

/-- `eq2assign(env, equality, td)` on the equality `arg0 = arg1` (the
`is_true` shortcut aside): normalize `arg0 - arg1`; return the TRUE
sentinel if the difference is identically zero; otherwise scan the
sorted keys for a symbol to isolate, fail if none; compute the
multiplier `-1/coef` (via `-coef` for `coef ∈ {-1, 1}`, via the
`Fraction` round-trip otherwise), failing for an integer-only theory
when it is not an integer; pop the symbol, multiply the remainder by
the multiplier `Expr` and reconstitute. -/
def eq2assign (isInt : Bool) (a0 a1 : ATerm) : Option EqRes :=
  match plusFnode [] (.sub a0 a1) with
  | none => none
  | some c =>
    if isZero c then some .triv
    else
      match scanGo (!isInt) c (none, false) (sortMonos c.keys) with
      | (none, _) => some .fail
      | (some sc, isN) =>
        let q : ℚ := if sc.2 = -1 ∨ sc.2 = 1 then -sc.2 else -1 / sc.2
        if isInt ∧ q.den ≠ 1 then some .fail
        else
          let coefExpr : Coef := Coef.addNP [] [] q
          let rem := c.erase [Atom.sym sc.1]
          some (.assign sc.1 (pysmt_expr (timesC rem coefExpr)) isN)

theorem evalMono_sym (σ : IVar → ℚ) (v : IVar) :
    evalMono σ [Atom.sym v] = σ v := by
  simp [evalMono, Atom.term, evalA]

/-- C7: on the equality `a0 = a1` whose normalized difference map is
`c`, `eq2assign` returns the trivial sentinel whenever the difference
is identically zero; and whenever it returns an assignment `(s, e, _)`
the chosen symbol has a nonzero coefficient in `c`, the expression `e`
denotes `(-1 / coefficient) × (remaining terms)`, and `s = e` is
logically equivalent to `a0 = a1`. -/
theorem c7_eq2assign_correct (isInt : Bool) (a0 a1 : ATerm) (c : Coef)
    (hc : plusFnode [] (.sub a0 a1) = some c) :
    (isZero c = true → eq2assign isInt a0 a1 = some .triv) ∧
    (∀ s e nx, eq2assign isInt a0 a1 = some (.assign s e nx) →
      c.get [Atom.sym s] ≠ 0 ∧
      (∀ σ : IVar → ℚ, evalA σ e
          = -1 / c.get [Atom.sym s] * evalC σ (c.erase [Atom.sym s])) ∧
      (∀ σ : IVar → ℚ,
        (σ s = evalA σ e ↔ evalA σ a0 = evalA σ a1))) := by
  have hdiff : ∀ σ : IVar → ℚ, evalC σ c = evalA σ a0 - evalA σ a1 := by
    intro σ
    have h := plusFnode_sem hc σ
    simpa [evalC, evalA] using h
  constructor
  · intro hz
    simp only [eq2assign, hc]
    rw [if_pos hz]
  · intro s e nx h
    simp only [eq2assign, hc] at h
    by_cases hz : isZero c = true
    · rw [if_pos hz] at h
      simp at h
    · rw [if_neg hz] at h
      split at h
      · simp at h
      · rename_i sc isN heq
        obtain ⟨hget, hnz0⟩ := scanGo_spec (!isInt) c
          (sortMonos c.keys) (none, false)
          (fun pc hpc => by simp at hpc) sc (by rw [heq])
        have hqv : (if sc.2 = -1 ∨ sc.2 = 1 then -sc.2 else -1 / sc.2)
            = -1 / sc.2 := by
          split
          · rename_i h1
            rcases h1 with h1 | h1 <;> rw [h1] <;> norm_num
          · rfl
        rw [hqv] at h
        split at h
        · simp at h
        · rename_i hden
          simp only [Option.some.injEq, EqRes.assign.injEq] at h
          obtain ⟨rfl, rfl, rfl⟩ := h
          have hnodc : c.keys.Nodup :=
            plusFnode_nodup hc (by simp [Coef.keys])
          have hnodr : (c.erase [Atom.sym sc.1]).keys.Nodup :=
            nodup_keys_erase hnodc _
          have heval : ∀ σ : IVar → ℚ,
              evalA σ (pysmt_expr (timesC (c.erase [Atom.sym sc.1])
                (Coef.addNP [] [] (-1 / sc.2))))
              = -1 / sc.2 * evalC σ (c.erase [Atom.sym sc.1]) := by
            intro σ
            rw [pysmt_expr_eval (timesC_nodup hnodr) σ, timesC_sem]
            have hcoefv : evalC σ (Coef.addNP [] [] (-1 / sc.2))
                = -1 / sc.2 := by
              simp [Coef.addNP, Coef.set, Coef.get, evalC, evalMono]
            rw [hcoefv]
            ring
          refine ⟨by rw [hget]; exact hnz0, ?_, ?_⟩
          · intro σ
            rw [hget]
            exact heval σ
          · intro σ
            rw [heval σ]
            have key : sc.2 * σ sc.1 + evalC σ (c.erase [Atom.sym sc.1])
                = evalA σ a0 - evalA σ a1 := by
              have h1 := hdiff σ
              rw [evalC_get_erase σ c [Atom.sym sc.1], hget,
                evalMono_sym] at h1
              linarith
            constructor
            · intro hx
              have hmul : sc.2 * σ sc.1
                  = -evalC σ (c.erase [Atom.sym sc.1]) := by
                rw [hx]
                field_simp
                ring
              linarith [key, hmul]
            · intro hA
              rw [hA] at key
              have h2 : sc.2 * σ sc.1
                  = -evalC σ (c.erase [Atom.sym sc.1]) := by linarith
              rw [div_mul_eq_mul_div, eq_div_iff hnz0]
              linear_combination h2

/-- Witness for the C7 theorem at the integer equality `x = y + 1`
(its normalized difference map is `{x: 1, y: -1, 1: -1}`; `eq2assign`
rewrites it to `y := -1 + x`), instantiated at the assignment
`x = 5, y = 4`. -/
theorem c7_witness :
    ((fun v : IVar => if v.base = 0 then (5 : ℚ) else 4) ⟨1, false⟩
        = evalA (fun v : IVar => if v.base = 0 then (5 : ℚ) else 4)
            (ATerm.add (ATerm.const (-1)) (ATerm.sym ⟨0, false⟩))
      ↔ evalA (fun v : IVar => if v.base = 0 then (5 : ℚ) else 4)
            (ATerm.sym ⟨0, false⟩)
        = evalA (fun v : IVar => if v.base = 0 then (5 : ℚ) else 4)
            (ATerm.add (ATerm.sym ⟨1, false⟩) (ATerm.const 1))) :=
  ((c7_eq2assign_correct false (ATerm.sym ⟨0, false⟩)
      (ATerm.add (ATerm.sym ⟨1, false⟩) (ATerm.const 1))
      [([Atom.sym ⟨0, false⟩], 1), ([Atom.sym ⟨1, false⟩], -1), ([], -1)]
      (by with_unfolding_all rfl)).2
    ⟨1, false⟩ (ATerm.add (ATerm.const (-1)) (ATerm.sym ⟨0, false⟩)) false
    (by with_unfolding_all rfl)).2.2
    (fun v : IVar => if v.base = 0 then (5 : ℚ) else 4)

end F3
